import Mathlib

/-!
Verification of the GenAIScript plugin orchestration engine
(`packages/core/src/pluginloader.ts` together with the types of
`packages/core/src/plugin.ts`).

The TypeScript source is shallowly embedded: JavaScript objects become
association lists (key order = insertion order, keys unique as in JS),
JS `Map` becomes an association list with replace-in-place `set`
semantics, exceptions become `Except`/explicit error fields, and the two
recursions of the sorter (`detectCircular` and `resolve`) become
well-founded recursion on a stack measure, respectively a fuel-indexed
recursion whose fuel exhaustion is a distinguished error that is proved
unreachable where needed.
-/

namespace PluginLoader

/-- Embeds `ConflictResolutionStrategy` from `plugin.ts`. -/
inductive ConflictResolutionStrategy
  | PRIORITY
  | WARN_OVERRIDE
  | MERGE
  | ERROR
deriving DecidableEq, Repr

/-- JavaScript values as they occur in extension namespaces: JSON data
plus function references (which JSON serialization drops). -/
inductive JValue
  | null : JValue
  | bool (b : Bool) : JValue
  | num (n : Int) : JValue
  | str (s : String) : JValue
  | arr (elems : List JValue) : JValue
  | obj (fields : List (String × JValue)) : JValue
  | func (id : Nat) : JValue

/-- A JS object / namespace: association list, key order is insertion
order and keys are unique (a JS-object invariant). -/
abbrev JObject := List (String × JValue)

/-- Property read `o[k]`, `none` playing the role of `undefined`. -/
def jget (o : JObject) (k : String) : Option JValue :=
  (o.find? (fun kv => kv.1 == k)).map (·.2)

/-- Property write `o[k] = v`: replaces the value in place if the key
exists (keeping its position), otherwise appends the key. The same
semantics serves for `Map.set`. -/
def jset {α : Type} : List (String × α) → String → α → List (String × α)
  | [], k, v => [(k, v)]
  | (k', v') :: rest, k, v =>
    if k' = k then (k', v) :: rest else (k', v') :: jset rest k v

/-- Generic association-list read, used for JS `Map.get` as well. -/
def aget {α : Type} (m : List (String × α)) (k : String) : Option α :=
  (m.find? (fun kv => kv.1 == k)).map (·.2)

mutual

/-- One `JSON.parse(JSON.stringify(·))` round trip of a single value:
`none` when the value is dropped altogether (a function appearing as an
object property vanishes from the serialization). -/
def jsonRound : JValue → Option JValue
  | .null => some .null
  | .bool b => some (.bool b)
  | .num n => some (.num n)
  | .str s => some (.str s)
  | .arr xs => some (.arr (jsonRoundArr xs))
  | .obj fs => some (.obj (jsonRoundObj fs))
  | .func _ => none

/-- Array elements under JSON round trip: a dropped element (function)
becomes `null`, as `JSON.stringify` serializes it inside an array. -/
def jsonRoundArr : List JValue → List JValue
  | [] => []
  | v :: vs => ((jsonRound v).getD .null) :: jsonRoundArr vs

/-- Object fields under JSON round trip: fields whose value is dropped
(functions) disappear from the object. -/
def jsonRoundObj : List (String × JValue) → List (String × JValue)
  | [] => []
  | (k, v) :: fs =>
    match jsonRound v with
    | some w => (k, w) :: jsonRoundObj fs
    | none => jsonRoundObj fs

end

/-- Values looked up during `deepMerge`'s object walk are structurally
smaller than the object they come from (termination helper). -/
theorem sizeOf_lt_of_jget {o : JObject} {k : String} {v : JValue}
    (h : jget o k = some v) : sizeOf v < sizeOf o := by
  induction o with
  | nil => simp [jget] at h
  | cons kv rest ih =>
    rw [jget, List.find?] at h
    by_cases hk : kv.1 == k
    · simp [hk] at h
      subst h
      cases kv with
      | mk a b => simp; omega
    · simp [hk] at h
      have := ih (by simpa [jget] using h)
      cases kv with
      | mk a b => simp; omega

mutual

/-- Embeds `deepMerge(target, source)` from `pluginloader.ts`: concatenates two
arrays, merges two plain objects field by field, and otherwise returns
the source value. (A `func` value has `typeof === "function"`, so it
falls through to the source like any non-object.) -/
def deepMerge : JValue → JValue → JValue
  | .arr t, .arr s => .arr (t ++ s)
  | .obj t, .obj s => .obj (deepMergeFields t s ++ s.filter (fun kv => (jget t kv.1).isNone))
  | _, s => s
termination_by t s => sizeOf t + sizeOf s
decreasing_by
  all_goals simp_wf
  all_goals omega

/-- The `{...target}` part of the object merge: every target field keeps
its position; fields also present in the source are deep-merged. Fields
of the source absent from the target are appended afterwards (in source
order) by the caller. -/
def deepMergeFields : List (String × JValue) → List (String × JValue) → List (String × JValue)
  | [], _ => []
  | (k, v) :: rest, s =>
    (match h : jget s k with
     | some sv => (k, deepMerge v sv)
     | none => (k, v)) :: deepMergeFields rest s
termination_by t s => sizeOf t + sizeOf s
decreasing_by
  all_goals simp_wf
  all_goals first
    | omega
    | (have hlk := sizeOf_lt_of_jget h
       omega)

end

/-- A single quote character, used in the loader's error/warning texts. -/
def sq : String := String.singleton (Char.ofNat 39)

/-- Embeds `PluginExtensionContext` from `plugin.ts`: the four optional
extension namespaces (`undefined` = `none`). -/
structure PluginExtensionContext where
  global : Option JObject := none
  host : Option JObject := none
  workspace : Option JObject := none
  parsers : Option JObject := none

/-- The fixed namespace list walked by the conflict-detection loop. -/
def contextKeys : List String := ["global", "host", "workspace", "parsers"]

/-- Read `context[contextKey]` for one of the four namespaces. -/
def getNS (c : PluginExtensionContext) : String → Option JObject
  | "global" => c.global
  | "host" => c.host
  | "workspace" => c.workspace
  | "parsers" => c.parsers
  | _ => none

/-- Write back a namespace object into the context (the in-place
mutation of `context[contextKey]` in the JS original). -/
def setNS (c : PluginExtensionContext) (key : String) (ns : JObject) :
    PluginExtensionContext :=
  if key = "global" then { c with global := some ns }
  else if key = "host" then { c with host := some ns }
  else if key = "workspace" then { c with workspace := some ns }
  else if key = "parsers" then { c with parsers := some ns }
  else c

/-- The deep snapshot `JSON.parse(JSON.stringify(context))` taken before
each extension callback runs. -/
def snapshot (c : PluginExtensionContext) : PluginExtensionContext where
  global := c.global.map jsonRoundObj
  host := c.host.map jsonRoundObj
  workspace := c.workspace.map jsonRoundObj
  parsers := c.parsers.map jsonRoundObj

/-- Embeds `PluginDefinition` from `plugin.ts` (the fields the orchestration
core reads; `setup` has already been executed by the loader). -/
structure PluginDefinition where
  name : String
  priority : Option Int := none
  conflictResolution : Option ConflictResolutionStrategy := none
  dependencies : Option (List String) := none

/-- An extension callback registered through `extend`; `Except.error`
models the callback throwing. -/
abbrev ExtensionCallback := PluginExtensionContext → Except String PluginExtensionContext

/-- Embeds `PluginLifecycleContext` from `plugin.ts`. -/
structure PluginLifecycleContext where
  scriptName : Option String := none

/-- A lifecycle hook; `Except.error` models the hook throwing or its
promise rejecting. -/
abbrev LifecycleHook := PluginLifecycleContext → Except String Unit

/-- Embeds `PluginLifecycleHooks` from `plugin.ts`. -/
structure PluginLifecycleHooks where
  beforeRun : List LifecycleHook := []
  afterRun : List LifecycleHook := []
  onError : List LifecycleHook := []

/-- Embeds `LoadedPlugin` from `plugin.ts`. -/
structure LoadedPlugin where
  definition : PluginDefinition
  source : String := ""
  extensions : List ExtensionCallback := []
  lifecycleHooks : PluginLifecycleHooks := {}

/-- Embeds `PropertyOwner` from `pluginloader.ts`. -/
structure PropertyOwner where
  pluginName : String
  path : String
deriving DecidableEq, Repr

/-- The `propertyOwners` JS `Map`, as an insertion-ordered association
list with replace-in-place `set` (= `jset`). -/
abbrev OwnerMap := List (String × PropertyOwner)

/-- The warning text of a cross-plugin override. -/
def overridingMsg (writer ownerKey owner : String) : String :=
  "Plugin " ++ sq ++ writer ++ sq ++ " is overriding " ++ sq ++ ownerKey ++
    sq ++ " previously set by plugin " ++ sq ++ owner ++ sq

/-- The error text of a missing dependency. -/
def missingDepMsg (dependent missing : String) : String :=
  "Plugin " ++ sq ++ dependent ++ sq ++ " depends on " ++ sq ++ missing ++
    sq ++ " which is not loaded"

/-- The error text of a detected dependency cycle. -/
def circularMsg (cyc : List String) : String :=
  "Circular dependency detected in plugins: " ++ String.intercalate " -> " cyc

/-- The wrapper `applyPluginExtensions` puts around a thrown error. -/
def applyWrapMsg (pluginName msg : String) : String :=
  "Error applying extension from plugin " ++ sq ++ pluginName ++ sq ++ ": " ++ msg

/-- The wrapper `executeBeforeRunHooks` puts around a thrown error. -/
def beforeRunFailMsg (pluginName msg : String) : String :=
  "beforeRun hook failed for plugin " ++ sq ++ pluginName ++ sq ++ ": " ++ msg

/-- State threaded through the conflict-detection loop of one callback:
the live namespace object being walked, the ownership map, and the
warnings printed so far. -/
structure ConflictState where
  afterObj : JObject
  owners : OwnerMap
  warnings : List String

/-- The body of the `for (const propKey in afterObj)` loop of
`applyExtensionWithConflictDetection`, for a single property. An
`Except.error` is the exception thrown under the ERROR strategy. -/
def processProp (strategy : ConflictResolutionStrategy)
    (pluginName contextKey : String) (beforeObj : JObject)
    (st : ConflictState) (propKey : String) : Except String ConflictState :=
  let ownerKey := contextKey ++ "." ++ propKey
  match jget beforeObj propKey with
  | some beforeVal =>
    match aget st.owners ownerKey with
    | some owner =>
      if owner.pluginName ≠ pluginName then
        let message := overridingMsg pluginName ownerKey owner.pluginName
        match strategy with
        | .ERROR => .error message
        | .WARN_OVERRIDE =>
          .ok { st with
                warnings := st.warnings ++ ["[Plugin Warning] " ++ message],
                owners := jset st.owners ownerKey ⟨pluginName, ownerKey⟩ }
        | .MERGE =>
          match jget st.afterObj propKey with
          | some afterVal =>
            .ok { st with
                  afterObj := jset st.afterObj propKey (deepMerge beforeVal afterVal) }
          | none => .ok st
        | .PRIORITY =>
          .ok { st with owners := jset st.owners ownerKey ⟨pluginName, ownerKey⟩ }
      else
        .ok st
    | none =>
      .ok { st with owners := jset st.owners ownerKey ⟨pluginName, ownerKey⟩ }
  | none =>
    .ok { st with owners := jset st.owners ownerKey ⟨pluginName, ownerKey⟩ }

/-- The key loop of the conflict detection for one namespace. On an
ERROR-strategy throw, the mutations applied to the live namespace up to
that point are kept (JS mutates in place and the exception propagates). -/
def processProps (strategy : ConflictResolutionStrategy)
    (pluginName contextKey : String) (beforeObj : JObject) :
    List String → ConflictState → ConflictState × Option String
  | [], st => (st, none)
  | k :: rest, st =>
    match processProp strategy pluginName contextKey beforeObj st k with
    | .error e => (st, some e)
    | .ok st' => processProps strategy pluginName contextKey beforeObj rest st'

/-- Conflict detection for one namespace of the context: skipped when
the live context does not hold the namespace; the pre-callback object is
looked up in the JSON snapshot, defaulting to `{}`. -/
def processContextKey (strategy : ConflictResolutionStrategy)
    (pluginName : String) (ctxBefore : PluginExtensionContext)
    (ctx : PluginExtensionContext) (owners : OwnerMap)
    (warnings : List String) (contextKey : String) :
    PluginExtensionContext × OwnerMap × List String × Option String :=
  match getNS ctx contextKey with
  | none => (ctx, owners, warnings, none)
  | some afterObj =>
    let beforeObj := (getNS ctxBefore contextKey).getD []
    let keys := afterObj.map (·.1)
    let r := processProps strategy pluginName contextKey beforeObj keys
      ⟨afterObj, owners, warnings⟩
    (setNS ctx contextKey r.1.afterObj, r.1.owners, r.1.warnings, r.2)

/-- The namespace loop of the conflict detection; an ERROR-strategy
throw aborts the remaining namespaces. -/
def processContextKeys (strategy : ConflictResolutionStrategy)
    (pluginName : String) (ctxBefore : PluginExtensionContext) :
    List String → PluginExtensionContext → OwnerMap → List String →
    PluginExtensionContext × OwnerMap × List String × Option String
  | [], ctx, owners, warnings => (ctx, owners, warnings, none)
  | ck :: rest, ctx, owners, warnings =>
    match processContextKey strategy pluginName ctxBefore ctx owners warnings ck with
    | (ctx', owners', warnings', some e) => (ctx', owners', warnings', some e)
    | (ctx', owners', warnings', none) =>
      processContextKeys strategy pluginName ctxBefore rest ctx' owners' warnings'

/-- Outcome of `applyExtensionWithConflictDetection`: the (possibly
partially) mutated context, the updated ownership map, the warnings
printed, and the exception thrown, if any. -/
structure ConflictStepResult where
  ctx : PluginExtensionContext
  owners : OwnerMap
  warnings : List String
  thrown : Option String

/-- Embeds `applyExtensionWithConflictDetection` from `pluginloader.ts`: deep
JSON snapshot, run the callback, then diff-and-resolve each namespace
with the running plugin's strategy (default WARN_OVERRIDE). -/
def applyExtensionWithConflictDetection (extension : ExtensionCallback)
    (ctx : PluginExtensionContext) (plugin : LoadedPlugin)
    (propertyOwners : OwnerMap) : ConflictStepResult :=
  let contextBefore := snapshot ctx
  match extension ctx with
  | .error e => ⟨ctx, propertyOwners, [], some e⟩
  | .ok ctx1 =>
    let strategy := plugin.definition.conflictResolution.getD .WARN_OVERRIDE
    let r := processContextKeys strategy plugin.definition.name contextBefore
      contextKeys ctx1 propertyOwners []
    ⟨r.1, r.2.1, r.2.2.1, r.2.2.2⟩

/-- Outcome of a whole apply pass. `error = some _` means the pass was
aborted there; mutations already applied remain in `ctx` (no rollback). -/
structure ApplyResult where
  ctx : PluginExtensionContext
  owners : OwnerMap
  warnings : List String
  error : Option String

/-- The inner loop of `applyPluginExtensions` over one plugin's
extension callbacks; a thrown error is wrapped, names the plugin, and
aborts the pass. -/
def applyExtList (plugin : LoadedPlugin) :
    List ExtensionCallback → PluginExtensionContext → OwnerMap →
    List String → ApplyResult
  | [], ctx, owners, warns => ⟨ctx, owners, warns, none⟩
  | ext :: rest, ctx, owners, warns =>
    let r := applyExtensionWithConflictDetection ext ctx plugin owners
    match r.thrown with
    | some e =>
      ⟨r.ctx, r.owners, warns ++ r.warnings,
        some (applyWrapMsg plugin.definition.name e)⟩
    | none => applyExtList plugin rest r.ctx r.owners (warns ++ r.warnings)

/-- The outer loop of `applyPluginExtensions` over the ordered plugins. -/
def applyPluginsLoop :
    List LoadedPlugin → PluginExtensionContext → OwnerMap → List String → ApplyResult
  | [], ctx, owners, warns => ⟨ctx, owners, warns, none⟩
  | p :: rest, ctx, owners, warns =>
    let r := applyExtList p p.extensions ctx owners warns
    match r.error with
    | some _ => r
    | none => applyPluginsLoop rest r.ctx r.owners r.warnings

/-- Embeds `applyPluginExtensions` from `pluginloader.ts`: fresh ownership map,
every plugin's callbacks in order, abort on the first wrapped error. -/
def applyPluginExtensions (plugins : List LoadedPlugin)
    (context : PluginExtensionContext) : ApplyResult :=
  applyPluginsLoop plugins context [] []

/-- Outcome of the (fail-fast) before-run pass: the hooks invoked, as
`(plugin name, hook index)` in invocation order, and the propagated
error if one hook threw. -/
structure HookPassResult where
  executed : List (String × Nat)
  error : Option String

/-- The inner loop of `executeBeforeRunHooks` over one plugin's hooks:
the first throw is wrapped and propagated, skipping everything after. -/
def beforeHooksOfPlugin (pname : String) (ctx : PluginLifecycleContext) :
    List LifecycleHook → Nat → List (String × Nat) →
    List (String × Nat) × Option String
  | [], _, acc => (acc, none)
  | h :: rest, i, acc =>
    let acc1 := acc ++ [(pname, i)]
    match h ctx with
    | .ok _ => beforeHooksOfPlugin pname ctx rest (i + 1) acc1
    | .error e => (acc1, some (beforeRunFailMsg pname e))

/-- The outer loop of `executeBeforeRunHooks` over the ordered plugins. -/
def beforeRunLoop (ctx : PluginLifecycleContext) :
    List LoadedPlugin → List (String × Nat) → HookPassResult
  | [], acc => ⟨acc, none⟩
  | p :: rest, acc =>
    match beforeHooksOfPlugin p.definition.name ctx p.lifecycleHooks.beforeRun 0 acc with
    | (acc1, some e) => ⟨acc1, some e⟩
    | (acc1, none) => beforeRunLoop ctx rest acc1

/-- Embeds `executeBeforeRunHooks` from `pluginloader.ts` (fail-fast pass). -/
def executeBeforeRunHooks (plugins : List LoadedPlugin)
    (ctx : PluginLifecycleContext) : HookPassResult :=
  beforeRunLoop ctx plugins []

/-- Outcome of the (fail-soft) after-run pass: the hooks invoked and the
single collected warning, if any hook failed. The pass itself never
throws, which is why this result has no error component. -/
structure AfterPassResult where
  executed : List (String × Nat)
  warning : Option String

/-- The inner loop of `executeAfterRunHooks` over one plugin's hooks:
failures are collected as `(plugin name, message)` and never interrupt. -/
def afterHooksOfPlugin (pname : String) (ctx : PluginLifecycleContext) :
    List LifecycleHook → Nat → List (String × Nat) →
    List (String × Nat) × List (String × String)
  | [], _, acc => (acc, [])
  | h :: rest, i, acc =>
    let acc1 := acc ++ [(pname, i)]
    match h ctx with
    | .ok _ => afterHooksOfPlugin pname ctx rest (i + 1) acc1
    | .error e =>
      let r := afterHooksOfPlugin pname ctx rest (i + 1) acc1
      (r.1, (pname, e) :: r.2)

/-- The outer loop of `executeAfterRunHooks` over the ordered plugins. -/
def afterRunLoop (ctx : PluginLifecycleContext) :
    List LoadedPlugin → List (String × Nat) →
    List (String × Nat) × List (String × String)
  | [], acc => (acc, [])
  | p :: rest, acc =>
    let r := afterHooksOfPlugin p.definition.name ctx p.lifecycleHooks.afterRun 0 acc
    let r2 := afterRunLoop ctx rest r.1
    (r2.1, r.2 ++ r2.2)

/-- Embeds `executeAfterRunHooks` from `pluginloader.ts` (fail-soft pass): all
hooks of all plugins run; collected failures are reported together as
one warning at the end. -/
def executeAfterRunHooks (plugins : List LoadedPlugin)
    (ctx : PluginLifecycleContext) : AfterPassResult :=
  let r := afterRunLoop ctx plugins []
  ⟨r.1,
    if r.2.isEmpty then none
    else some ("[Plugin Warning] Some afterRun hooks failed:\n" ++
      String.intercalate "\n" (r.2.map (fun e => "  - " ++ e.1 ++ ": " ++ e.2)))⟩

/-- The names of a batch, in batch order. -/
def namesOf (ps : List LoadedPlugin) : List String :=
  ps.map (fun p => p.definition.name)

/-- The names of a batch as a finite set (used for termination measures). -/
def nameSet (ps : List LoadedPlugin) : Finset String :=
  (namesOf ps).toFinset

/-- The `pluginMap` of `sortPluginsByPriorityAndDependencies`: built by
`forEach`/`set`, so the last plugin bearing a name wins. -/
def pluginMapGet (ps : List LoadedPlugin) (n : String) : Option LoadedPlugin :=
  ps.foldl (fun acc p => if p.definition.name = n then some p else acc) none

theorem pluginMapGet_spec {ps : List LoadedPlugin} {n : String} {q : LoadedPlugin}
    (h : pluginMapGet ps n = some q) : q ∈ ps ∧ q.definition.name = n := by
  suffices H : ∀ (l : List LoadedPlugin) (acc : Option LoadedPlugin),
      l.foldl (fun acc p => if p.definition.name = n then some p else acc) acc = some q →
      (q ∈ l ∧ q.definition.name = n) ∨ acc = some q by
    rcases H ps none h with h1 | h1
    · exact h1
    · simp at h1
  intro l
  induction l with
  | nil => intro acc h1; right; simpa using h1
  | cons p rest ih =>
    intro acc h1
    rw [List.foldl_cons] at h1
    rcases ih _ h1 with h2 | h2
    · exact Or.inl ⟨List.mem_cons_of_mem _ h2.1, h2.2⟩
    · by_cases hp : p.definition.name = n
      · simp [hp] at h2
        exact Or.inl ⟨by simp [← h2], by simp [← h2, hp]⟩
      · simp [hp] at h2
        exact Or.inr h2

theorem name_mem_of_pluginMapGet {ps : List LoadedPlugin} {n : String}
    {q : LoadedPlugin} (h : pluginMapGet ps n = some q) :
    q.definition.name ∈ nameSet ps := by
  rcases pluginMapGet_spec h with ⟨hm, _⟩
  simp only [nameSet, List.mem_toFinset, namesOf, List.mem_map]
  exact ⟨q, hm, rfl⟩

theorem card_sdiff_cons_lt {univ : Finset String} {stack : List String}
    {n : String} (hn : n ∈ univ) (hs : n ∉ stack) :
    (univ \ insert n stack.toFinset).card < (univ \ stack.toFinset).card := by
  apply Finset.card_lt_card
  have hsub : univ \ insert n stack.toFinset ⊆ univ \ stack.toFinset := by
    apply Finset.sdiff_subset_sdiff (le_refl _)
    intro x hx
    exact Finset.mem_insert_of_mem hx
  refine (Finset.ssubset_iff_of_subset hsub).mpr ⟨n, ?_, ?_⟩
  · simp only [Finset.mem_sdiff, List.mem_toFinset]
    exact ⟨hn, hs⟩
  · simp

mutual

/-- Embeds `detectCircular` from `sortPluginsByPriorityAndDependencies`.
The mutable `visited` set is threaded through and returned; the mutable
`stack` set is modeled as the list of names on the current recursion
path, most recent first (every completed call removes its own name
again, so handing the caller's list down unchanged is faithful; a
returned cycle aborts the whole sort, making the stack state moot).
The membership argument only feeds the termination measure. -/
def detectCircular (ps : List LoadedPlugin) (p : LoadedPlugin)
    (hp : p.definition.name ∈ nameSet ps)
    (visited : Finset String) (stack : List String) :
    Option (List String) × Finset String :=
  if hstk : p.definition.name ∈ stack then (some [p.definition.name], visited)
  else if hv : p.definition.name ∈ visited then (none, visited)
  else
    match detectCircularDeps ps (p.definition.dependencies.getD [])
        (insert p.definition.name visited) (p.definition.name :: stack) with
    | (some cyc, v) => (some (p.definition.name :: cyc), v)
    | (none, v) => (none, v)
termination_by ((nameSet ps \ stack.toFinset).card, 0)
decreasing_by
  simp_wf
  exact Prod.Lex.left _ _ (card_sdiff_cons_lt hp hstk)

/-- The `for (const dep of ...)` loop of `detectCircular`: dependencies
absent from the map are skipped here (the resolve phase reports them). -/
def detectCircularDeps (ps : List LoadedPlugin) (ds : List String)
    (visited : Finset String) (stack : List String) :
    Option (List String) × Finset String :=
  match ds with
  | [] => (none, visited)
  | d :: rest =>
    match hm : pluginMapGet ps d with
    | none => detectCircularDeps ps rest visited stack
    | some dp =>
      match detectCircular ps dp (name_mem_of_pluginMapGet hm) visited stack with
      | (some cyc, v) => (some cyc, v)
      | (none, v) => detectCircularDeps ps rest v stack
termination_by ((nameSet ps \ stack.toFinset).card, ds.length + 1)
decreasing_by
  · simp_wf
    exact Prod.Lex.right _ (by omega)
  · simp_wf
    exact Prod.Lex.right _ (by omega)
  · simp_wf
    exact Prod.Lex.right _ (by omega)

end

/-- The `for (const plugin of plugins)` loop that runs `detectCircular`
over every batch member, sharing the `visited` set (the shared `stack`
set is empty again between top-level calls). Iterates over `ps.attach`
so each element carries its batch membership for the termination
measure. -/
def checkCyclesLoop (ps : List LoadedPlugin) :
    List { p : LoadedPlugin // p ∈ ps } → Finset String → Option (List String)
  | [], _ => none
  | ⟨p, hp⟩ :: rest, visited =>
    match detectCircular ps p
        (by
          simp only [nameSet, List.mem_toFinset, namesOf, List.mem_map]
          exact ⟨p, hp, rfl⟩)
        visited [] with
    | (some cyc, _) => some cyc
    | (none, v) => checkCyclesLoop ps rest v

/-- Cycle detection over the whole batch: `some cyc` is the traversal
path reported in the `Circular dependency detected` error. -/
def checkCycles (ps : List LoadedPlugin) : Option (List String) :=
  checkCyclesLoop ps ps.attach ∅

/-- The artificial fuel-exhaustion marker of the embedded resolve
recursion. The JS original has no fuel; with the batch-length budget
used below, exhaustion is unreachable for any batch that passes cycle
detection (proved where needed). -/
def fuelMsg : String := "RESOLVE_FUEL_EXHAUSTED"

mutual

/-- Embeds `resolve` from `sortPluginsByPriorityAndDependencies`: skip if
already resolved, otherwise place all dependencies first, then append
the plugin. State is `(sorted, resolved)`. -/
def resolveOne (ps : List LoadedPlugin) :
    Nat → LoadedPlugin → List LoadedPlugin × Finset String →
    Except String (List LoadedPlugin × Finset String)
  | 0, _, _ => .error fuelMsg
  | fuel + 1, p, st =>
    if p.definition.name ∈ st.2 then .ok st
    else
      match resolveDeps ps fuel (p.definition.dependencies.getD [])
          p.definition.name st with
      | .error e => .error e
      | .ok st1 => .ok (st1.1 ++ [p], insert p.definition.name st1.2)

/-- The dependency loop of `resolve`: a name absent from the plugin map
raises the missing-dependency error naming dependent and dependency. -/
def resolveDeps (ps : List LoadedPlugin) :
    Nat → List String → String → List LoadedPlugin × Finset String →
    Except String (List LoadedPlugin × Finset String)
  | _, [], _, st => .ok st
  | fuel, d :: rest, pname, st =>
    match pluginMapGet ps d with
    | none => .error (missingDepMsg pname d)
    | some dp =>
      match resolveOne ps fuel dp st with
      | .error e => .error e
      | .ok st1 => resolveDeps ps fuel rest pname st1

end

/-- The `for (const plugin of byPriority)` loop driving `resolve`. -/
def resolveAll (ps : List LoadedPlugin) (fuel : Nat) :
    List LoadedPlugin → List LoadedPlugin × Finset String →
    Except String (List LoadedPlugin × Finset String)
  | [], st => .ok st
  | p :: rest, st =>
    match resolveOne ps fuel p st with
    | .error e => .error e
    | .ok st1 => resolveAll ps fuel rest st1

/-- Stable insertion into a descending-priority list: the new element
goes in front of the first strictly-lower-or-equal priority, i.e. after
every earlier element of greater priority and before later equals. -/
def insertDesc (p : LoadedPlugin) : List LoadedPlugin → List LoadedPlugin
  | [] => [p]
  | q :: qs =>
    if q.definition.priority.getD 0 ≤ p.definition.priority.getD 0 then p :: q :: qs
    else q :: insertDesc p qs

/-- The stable `[...plugins].sort((a, b) => priorityB - priorityA)`:
descending priority, ties keeping batch order (ES2019 sort is stable). -/
def byPrioritySort : List LoadedPlugin → List LoadedPlugin
  | [] => []
  | p :: rest => insertDesc p (byPrioritySort rest)

/-- Embeds `sortPluginsByPriorityAndDependencies` from `pluginloader.ts`:
cycle check, stable descending-priority sort, then dependency-first
placement. `Except.error` models the thrown `Error`. -/
def sortPluginsByPriorityAndDependencies (ps : List LoadedPlugin) :
    Except String (List LoadedPlugin) :=
  match checkCycles ps with
  | some cyc => .error (circularMsg cyc)
  | none =>
    match resolveAll ps (ps.length + 1) (byPrioritySort ps) ([], ∅) with
    | .error e => .error e
    | .ok st => .ok st.1

/-- The sort step of `loadPlugins` (lines 352–357): the sorter's error
is wrapped in `Failed to sort plugins:` and rethrown. Module loading
itself is an external collaborator and not modeled. -/
def loadPluginsSortStep (ps : List LoadedPlugin) :
    Except String (List LoadedPlugin) :=
  match sortPluginsByPriorityAndDependencies ps with
  | .error e => .error ("Failed to sort plugins: " ++ e)
  | .ok sorted => .ok sorted

/-- The caller-side pipeline (as exercised by the repository's tests):
order the batch with `loadPlugins`' sort step, then — only on success —
run `applyPluginExtensions` over the ordered list. -/
def loadAndApply (ps : List LoadedPlugin) (ctx : PluginExtensionContext) :
    Except String ApplyResult :=
  match loadPluginsSortStep ps with
  | .error e => .error e
  | .ok sorted => .ok (applyPluginExtensions sorted ctx)

/-! Concrete extension callbacks and plugins used by the claim
scenarios (their shape mirrors the callbacks of the repository's own
tests: ensure the namespace object exists, then assign properties). -/

/-- A callback doing `context.global = context.global || {};
context.global[k] = v`. -/
def setGlobalExt (k : String) (v : JValue) : ExtensionCallback :=
  fun ctx => .ok { ctx with global := some (jset (ctx.global.getD []) k v) }

/-- A callback assigning two global properties in order. -/
def setGlobalTwoExt (k1 : String) (v1 : JValue) (k2 : String) (v2 : JValue) :
    ExtensionCallback :=
  fun ctx => .ok { ctx with global := some (jset (jset (ctx.global.getD []) k1 v1) k2 v2) }

/-- A callback that touches nothing. -/
def idExt : ExtensionCallback := fun ctx => .ok ctx

/-- Plugin `P1`: writes `global.x = n`. -/
def ownerP1 (n : Int) : LoadedPlugin :=
  { definition := { name := "P1" }, extensions := [setGlobalExt "x" (.num n)] }

/-- Plugin `P2` with a chosen (or defaulted) strategy whose single
callback touches nothing at all. -/
def untouchingP2 (so : Option ConflictResolutionStrategy) : LoadedPlugin :=
  { definition := { name := "P2", conflictResolution := so }, extensions := [idExt] }

/-- Plugin `P1` of the ERROR scenario: writes `global.x = v1` and
`global.y = 10`. -/
def errP1 (v1 : Int) : LoadedPlugin :=
  { definition := { name := "P1" },
    extensions := [setGlobalTwoExt "x" (.num v1) "y" (.num 10)] }

/-- Plugin `P2` of the ERROR scenario: strategy ERROR, writes
`global.x = v2`. -/
def errP2 (v2 : Int) : LoadedPlugin :=
  { definition := { name := "P2", conflictResolution := some .ERROR },
    extensions := [setGlobalExt "x" (.num v2)] }

/-- Plugin `P3` of the ERROR scenario: would write `global.z = 3`. -/
def errP3 : LoadedPlugin :=
  { definition := { name := "P3" }, extensions := [setGlobalExt "z" (.num 3)] }

/-- Plugin `P1` of the MERGE scenario: writes `global.items = xs`. -/
def mergeP1 (xs : List JValue) : LoadedPlugin :=
  { definition := { name := "P1" }, extensions := [setGlobalExt "items" (.arr xs)] }

/-- Plugin `P2` of the MERGE scenario: strategy MERGE, writes
`global.items = ys`. -/
def mergeP2 (ys : List JValue) : LoadedPlugin :=
  { definition := { name := "P2", conflictResolution := some .MERGE },
    extensions := [setGlobalExt "items" (.arr ys)] }

/-- Plugin `P1` of the function-value scenario: writes a function to
`global.fn`. -/
def funcP1 : LoadedPlugin :=
  { definition := { name := "P1" }, extensions := [setGlobalExt "fn" (.func 1)] }

/-- Plugin `P2` of the function-value scenario: overwrites `global.fn`
with another function, under a chosen strategy. -/
def funcP2 (s : ConflictResolutionStrategy) : LoadedPlugin :=
  { definition := { name := "P2", conflictResolution := some s },
    extensions := [setGlobalExt "fn" (.func 2)] }

/-- Integer-valued arrays survive the JSON round trip unchanged. -/
theorem jsonRoundArr_map_num (xs : List Int) :
    jsonRoundArr (xs.map .num) = xs.map .num := by
  induction xs with
  | nil => rfl
  | cons x rest ih => simp [jsonRoundArr, jsonRound, ih]

/-- Claim C2, counterexample: `P1` writes `global.x = 1`; `P2` (default
strategy) runs a callback that touches nothing at all — yet the pass
emits the override warning for `global.x` and transfers its ownership to
`P2`, because the loop routes every key present after the callback, not
only changed or newly-added ones. -/
theorem C2_counterexample :
    (applyPluginExtensions [ownerP1 1, untouchingP2 none] {}).warnings =
      ["[Plugin Warning] " ++ overridingMsg "P2" "global.x" "P1"] ∧
    aget (applyPluginExtensions [ownerP1 1, untouchingP2 none] {}).owners "global.x" =
      some ⟨"P2", "global.x"⟩ ∧
    (applyPluginExtensions [ownerP1 1, untouchingP2 none] {}).error = none :=
  ⟨rfl, rfl, rfl⟩

/-- Claim C2 (amended): during one apply pass, the conflict-resolution
strategy is invoked for a `(namespace, key)` pair whenever the key is
present in the namespace after the callback, had a defined value in the
JSON snapshot taken before the callback, and is recorded for a different
plugin — regardless of whether the callback changed or even touched the
key. In particular a callback that touches nothing still triggers the
warning and ownership transfer under WARN_OVERRIDE, and still raises the
fatal error under ERROR, for a key another plugin owns. -/
theorem C2_untouched_key_is_still_routed (n : Int)
    (so : Option ConflictResolutionStrategy) :
    (so.getD .WARN_OVERRIDE = .WARN_OVERRIDE →
      (applyPluginExtensions [ownerP1 n, untouchingP2 so] {}).warnings =
        ["[Plugin Warning] " ++ overridingMsg "P2" "global.x" "P1"] ∧
      aget (applyPluginExtensions [ownerP1 n, untouchingP2 so] {}).owners "global.x" =
        some ⟨"P2", "global.x"⟩ ∧
      (applyPluginExtensions [ownerP1 n, untouchingP2 so] {}).error = none) ∧
    (so.getD .WARN_OVERRIDE = .ERROR →
      (applyPluginExtensions [ownerP1 n, untouchingP2 so] {}).error =
        some (applyWrapMsg "P2" (overridingMsg "P2" "global.x" "P1"))) := by
  rcases so with _ | s
  · exact ⟨fun _ => ⟨rfl, rfl, rfl⟩, fun h => absurd h (by decide)⟩
  · cases s
    · exact ⟨fun h => absurd h (by decide), fun h => absurd h (by decide)⟩
    · exact ⟨fun _ => ⟨rfl, rfl, rfl⟩, fun h => absurd h (by decide)⟩
    · exact ⟨fun h => absurd h (by decide), fun h => absurd h (by decide)⟩
    · exact ⟨fun h => absurd h (by decide), fun _ => rfl⟩

/-- Claim C2, witness: the amended theorem applied at `n = 5` and the
ERROR strategy. -/
theorem C2_witness :
    (Option.getD (some ConflictResolutionStrategy.ERROR) .WARN_OVERRIDE = .ERROR) ∧
    (applyPluginExtensions [ownerP1 5, untouchingP2 (some .ERROR)] {}).error =
      some (applyWrapMsg "P2" (overridingMsg "P2" "global.x" "P1")) :=
  ⟨rfl, (C2_untouched_key_is_still_routed 5 (some .ERROR)).2 rfl⟩

/-- Claim C4: `P1` writes `global.x = v1` (and `global.y = 10`); `P2`
with strategy ERROR writes a different `global.x = v2`. The pass aborts
with an error naming `P2`, `global.x` and `P1`; `P3`'s extension is
never applied (`global.z` stays absent); and nothing is rolled back —
`P1`'s other write `global.y = 10` and even `P2`'s own overwrite
`global.x = v2` remain in the context. -/
theorem C4_error_strategy_aborts (v1 v2 : Int) (hne : v1 ≠ v2) :
    (applyPluginExtensions [errP1 v1, errP2 v2, errP3] {}).error =
      some (applyWrapMsg "P2" (overridingMsg "P2" "global.x" "P1")) ∧
    ((applyPluginExtensions [errP1 v1, errP2 v2, errP3] {}).ctx.global.bind
      (fun g => jget g "y")) = some (.num 10) ∧
    ((applyPluginExtensions [errP1 v1, errP2 v2, errP3] {}).ctx.global.bind
      (fun g => jget g "x")) = some (.num v2) ∧
    ((applyPluginExtensions [errP1 v1, errP2 v2, errP3] {}).ctx.global.bind
      (fun g => jget g "z")) = none :=
  ⟨rfl, rfl, rfl, rfl⟩

/-- Claim C4, witness: the theorem applied at `v1 = 1`, `v2 = 2`. -/
theorem C4_witness :
    (1 : Int) ≠ 2 ∧
    (applyPluginExtensions [errP1 1, errP2 2, errP3] {}).error =
      some (applyWrapMsg "P2" (overridingMsg "P2" "global.x" "P1")) :=
  ⟨by decide, (C4_error_strategy_aborts 1 2 (by decide)).1⟩

/-- Claim C6, counterexample: with `P1` writing
`global.items = [function]` and `P2` (MERGE) writing
`global.items = [3]`, the merged value is `[null, 3]`, not the claimed
concatenation `[function, 3]` — the old sequence is read back from the
JSON snapshot, where a function element has become `null`. -/
theorem C6_counterexample :
    (applyPluginExtensions [mergeP1 [.func 7], mergeP2 [.num 3]] {}).error = none ∧
    ((applyPluginExtensions [mergeP1 [.func 7], mergeP2 [.num 3]] {}).ctx.global.bind
      (fun g => jget g "items")) = some (.arr [.null, .num 3]) ∧
    some (JValue.arr [.null, .num 3]) ≠
      some (JValue.arr ([JValue.func 7] ++ [JValue.num 3])) := by
  refine ⟨?_, ?_, ?_⟩
  · simp [applyPluginExtensions, applyPluginsLoop, applyExtList,
      applyExtensionWithConflictDetection, processContextKeys, processContextKey,
      processProps, processProp, snapshot, jsonRoundObj, jsonRound, jsonRoundArr,
      contextKeys, getNS, setNS, jget, jset, aget, mergeP1, mergeP2, setGlobalExt,
      deepMerge]
  · simp [applyPluginExtensions, applyPluginsLoop, applyExtList,
      applyExtensionWithConflictDetection, processContextKeys, processContextKey,
      processProps, processProp, snapshot, jsonRoundObj, jsonRound, jsonRoundArr,
      contextKeys, getNS, setNS, jget, jset, aget, mergeP1, mergeP2, setGlobalExt,
      deepMerge]
  · simp

/-- Claim C6 (amended): when `P2` (MERGE) writes a sequence to
`global.items` over `P1`'s earlier sequence, the result is the old
sequence *as it survives the JSON snapshot* (a non-serializable element
such as a function becomes `null`) followed by the new sequence's
elements, order preserved and duplicates kept. For sequences that
survive JSON serialization — integer sequences in particular — this is
exactly the claimed concatenation, e.g. `[1,2] ++ [3,4] = [1,2,3,4]`. -/
theorem C6_merge_concatenates :
    (∀ xs ys : List JValue,
      (applyPluginExtensions [mergeP1 xs, mergeP2 ys] {}).error = none ∧
      ((applyPluginExtensions [mergeP1 xs, mergeP2 ys] {}).ctx.global.bind
        (fun g => jget g "items")) = some (.arr (jsonRoundArr xs ++ ys))) ∧
    (∀ xs ys : List Int,
      ((applyPluginExtensions [mergeP1 (xs.map .num), mergeP2 (ys.map .num)] {}).ctx.global.bind
        (fun g => jget g "items")) = some (.arr (xs.map .num ++ ys.map .num))) ∧
    ((applyPluginExtensions
        [mergeP1 [.num 1, .num 2], mergeP2 [.num 3, .num 4]] {}).ctx.global.bind
      (fun g => jget g "items")) = some (.arr [.num 1, .num 2, .num 3, .num 4]) := by
  have key : ∀ xs ys : List JValue,
      (applyPluginExtensions [mergeP1 xs, mergeP2 ys] {}).error = none ∧
      ((applyPluginExtensions [mergeP1 xs, mergeP2 ys] {}).ctx.global.bind
        (fun g => jget g "items")) = some (.arr (jsonRoundArr xs ++ ys)) := by
    intro xs ys
    constructor <;>
      simp [applyPluginExtensions, applyPluginsLoop, applyExtList,
        applyExtensionWithConflictDetection, processContextKeys, processContextKey,
        processProps, processProp, snapshot, jsonRoundObj, jsonRound,
        contextKeys, getNS, setNS, jget, jset, aget, mergeP1, mergeP2, setGlobalExt,
        deepMerge]
  refine ⟨key, ?_, ?_⟩
  · intro xs ys
    rw [(key (xs.map .num) (ys.map .num)).2, jsonRoundArr_map_num]
  · have h := (key [.num 1, .num 2] [.num 3, .num 4]).2
    simpa [jsonRoundArr, jsonRound] using h

/-- Claim C7, counterexample: after `P2` (MERGE) merges into
`global.items` owned by `P1`, the ownership map still records `P1`, not
the writing plugin `P2` — the MERGE branch never updates
`propertyOwners`. -/
theorem C7_counterexample :
    aget (applyPluginExtensions [mergeP1 [.num 1], mergeP2 [.num 2]] {}).owners
      "global.items" = some ⟨"P1", "global.items"⟩ ∧
    (⟨"P1", "global.items"⟩ : PropertyOwner) ≠ ⟨"P2", "global.items"⟩ := by
  refine ⟨?_, by decide⟩
  simp [applyPluginExtensions, applyPluginsLoop, applyExtList,
    applyExtensionWithConflictDetection, processContextKeys, processContextKey,
    processProps, processProp, snapshot, jsonRoundObj, jsonRound, jsonRoundArr,
    contextKeys, getNS, setNS, jget, jset, aget, mergeP1, mergeP2, setGlobalExt,
    deepMerge]

/-- Claim C7 (amended): after a cross-plugin conflict is resolved under
the MERGE strategy, the ownership map still records the *original*
owner of the contested `(namespace, key)` pair; ownership does not
transfer to the writer (the MERGE branch leaves `propertyOwners`
untouched). -/
theorem C7_merge_keeps_original_owner (xs ys : List JValue) :
    aget (applyPluginExtensions [mergeP1 xs, mergeP2 ys] {}).owners
      "global.items" = some ⟨"P1", "global.items"⟩ := by
  simp [applyPluginExtensions, applyPluginsLoop, applyExtList,
    applyExtensionWithConflictDetection, processContextKeys, processContextKey,
    processProps, processProp, snapshot, jsonRoundObj, jsonRound,
    contextKeys, getNS, setNS, jget, jset, aget, mergeP1, mergeP2, setGlobalExt,
    deepMerge]

/-- Ghost identifiers `(plugin name, hook index)` for `len` hooks of one
plugin, starting at index `i`. -/
def hookIds (pname : String) : Nat → Nat → List (String × Nat)
  | _, 0 => []
  | i, len + 1 => (pname, i) :: hookIds pname (i + 1) len

/-- All before-run hook identifiers of a batch, in execution order. -/
def beforeHookIds (ps : List LoadedPlugin) : List (String × Nat) :=
  ps.flatMap (fun p => hookIds p.definition.name 0 p.lifecycleHooks.beforeRun.length)

/-- All after-run hook identifiers of a batch, in execution order. -/
def afterHookIds (ps : List LoadedPlugin) : List (String × Nat) :=
  ps.flatMap (fun p => hookIds p.definition.name 0 p.lifecycleHooks.afterRun.length)

theorem beforeHookIds_cons (p : LoadedPlugin) (ps : List LoadedPlugin) :
    beforeHookIds (p :: ps) =
      hookIds p.definition.name 0 p.lifecycleHooks.beforeRun.length ++
        beforeHookIds ps := by
  simp [beforeHookIds]

theorem afterHookIds_cons (p : LoadedPlugin) (ps : List LoadedPlugin) :
    afterHookIds (p :: ps) =
      hookIds p.definition.name 0 p.lifecycleHooks.afterRun.length ++
        afterHookIds ps := by
  simp [afterHookIds]

theorem beforeHooksOfPlugin_spec (pname : String) (ctx : PluginLifecycleContext) :
    ∀ (hooks : List LifecycleHook) (i : Nat) (acc : List (String × Nat)),
    ((beforeHooksOfPlugin pname ctx hooks i acc).2 = none →
      (beforeHooksOfPlugin pname ctx hooks i acc).1 =
        acc ++ hookIds pname i hooks.length) ∧
    (∀ e, (beforeHooksOfPlugin pname ctx hooks i acc).2 = some e →
      (∃ tail, acc ++ hookIds pname i hooks.length =
        (beforeHooksOfPlugin pname ctx hooks i acc).1 ++ tail) ∧
      ∃ msg, e = beforeRunFailMsg pname msg) := by
  intro hooks
  induction hooks with
  | nil =>
    intro i acc
    exact ⟨fun _ => by simp [beforeHooksOfPlugin, hookIds],
      fun e he => by simp [beforeHooksOfPlugin] at he⟩
  | cons h rest ih =>
    intro i acc
    constructor
    · intro hnone
      rw [beforeHooksOfPlugin] at hnone ⊢
      rcases hr : h ctx with e | u
      · simp [hr] at hnone
      · simp only [hr]
        simp only [hr] at hnone
        have := (ih (i + 1) (acc ++ [(pname, i)])).1 hnone
        simpa [hookIds] using this
    · intro e he
      rw [beforeHooksOfPlugin] at he ⊢
      rcases hr : h ctx with e0 | u
      · simp [hr] at he ⊢
        refine ⟨⟨hookIds pname (i + 1) rest.length, by simp [hookIds]⟩, ?_⟩
        exact ⟨e0, he.symm⟩
      · simp only [hr] at he ⊢
        have := (ih (i + 1) (acc ++ [(pname, i)])).2 e he
        rcases this with ⟨⟨tail, htail⟩, hmsg⟩
        exact ⟨⟨tail, by simpa [hookIds] using htail⟩, hmsg⟩

theorem beforeRunLoop_spec (ctx : PluginLifecycleContext) :
    ∀ (ps : List LoadedPlugin) (acc : List (String × Nat)),
    ((beforeRunLoop ctx ps acc).error = none →
      (beforeRunLoop ctx ps acc).executed = acc ++ beforeHookIds ps) ∧
    (∀ e, (beforeRunLoop ctx ps acc).error = some e →
      (∃ tail, acc ++ beforeHookIds ps = (beforeRunLoop ctx ps acc).executed ++ tail) ∧
      ∃ pn msg, e = beforeRunFailMsg pn msg) := by
  intro ps
  induction ps with
  | nil =>
    intro acc
    exact ⟨fun _ => by simp [beforeRunLoop, beforeHookIds],
      fun e he => by simp [beforeRunLoop] at he⟩
  | cons p rest ih =>
    intro acc
    have hplug := beforeHooksOfPlugin_spec p.definition.name ctx
      p.lifecycleHooks.beforeRun 0 acc
    rcases hh : beforeHooksOfPlugin p.definition.name ctx
        p.lifecycleHooks.beforeRun 0 acc with ⟨acc1, err⟩
    rw [hh] at hplug
    cases err with
    | none =>
      have hacc1 : acc1 = acc ++ hookIds p.definition.name 0
          p.lifecycleHooks.beforeRun.length := hplug.1 rfl
      constructor
      · intro hnone
        rw [beforeRunLoop, hh]
        rw [beforeRunLoop, hh] at hnone
        have hex := (ih acc1).1 hnone
        rw [hex, hacc1, beforeHookIds_cons, List.append_assoc]
      · intro e he
        rw [beforeRunLoop, hh] at he ⊢
        have := (ih acc1).2 e he
        rcases this with ⟨⟨tail, htail⟩, hmsg⟩
        refine ⟨⟨tail, ?_⟩, hmsg⟩
        rw [beforeHookIds_cons, ← List.append_assoc, ← hacc1, htail]
    | some e0 =>
      constructor
      · intro hnone
        rw [beforeRunLoop, hh] at hnone
        simp at hnone
      · intro e he
        rw [beforeRunLoop, hh] at he ⊢
        simp only [HookPassResult.error] at he
        cases he
        rcases hplug.2 e0 rfl with ⟨⟨tail, htail⟩, hmsg⟩
        refine ⟨⟨tail ++ beforeHookIds rest, ?_⟩, ?_⟩
        · rw [beforeHookIds_cons, ← List.append_assoc, htail, List.append_assoc]
        · exact ⟨p.definition.name, hmsg⟩

theorem afterHooksOfPlugin_trace (pname : String) (ctx : PluginLifecycleContext) :
    ∀ (hooks : List LifecycleHook) (i : Nat) (acc : List (String × Nat)),
    (afterHooksOfPlugin pname ctx hooks i acc).1 =
      acc ++ hookIds pname i hooks.length := by
  intro hooks
  induction hooks with
  | nil => intro i acc; simp [afterHooksOfPlugin, hookIds]
  | cons h rest ih =>
    intro i acc
    rw [afterHooksOfPlugin]
    rcases hr : h ctx with e | u
    · simp only [hr]
      rw [ih]
      simp [hookIds]
    · simp only [hr]
      rw [ih]
      simp [hookIds]

theorem afterRunLoop_trace (ctx : PluginLifecycleContext) :
    ∀ (ps : List LoadedPlugin) (acc : List (String × Nat)),
    (afterRunLoop ctx ps acc).1 = acc ++ afterHookIds ps := by
  intro ps
  induction ps with
  | nil => intro acc; simp [afterRunLoop, afterHookIds]
  | cons p rest ih =>
    intro acc
    rw [afterRunLoop]
    simp only []
    rw [ih, afterHooksOfPlugin_trace]
    simp [afterHookIds]

/-- Claim C5: for every ordered plugin list, the after-run pass runs
every hook of every plugin regardless of failures (its result has no
error channel at all — failures only surface in the collected warning),
while the before-run pass, on a failure, propagates a wrapped error
naming the failing plugin and runs no hook beyond the point of failure
(the executed hooks form a prefix of the full schedule; with no failure
the full schedule runs). -/
theorem C5_lifecycle_failure_semantics (ps : List LoadedPlugin)
    (ctx : PluginLifecycleContext) :
    (executeAfterRunHooks ps ctx).executed = afterHookIds ps ∧
    ((executeBeforeRunHooks ps ctx).error = none →
      (executeBeforeRunHooks ps ctx).executed = beforeHookIds ps) ∧
    (∀ e, (executeBeforeRunHooks ps ctx).error = some e →
      (∃ tail, beforeHookIds ps = (executeBeforeRunHooks ps ctx).executed ++ tail) ∧
      ∃ pn msg, e = beforeRunFailMsg pn msg) := by
  refine ⟨?_, ?_, ?_⟩
  · rw [executeAfterRunHooks]
    simp only []
    rw [afterRunLoop_trace]
    simp
  · intro hnone
    simpa using (beforeRunLoop_spec ctx ps []).1 hnone
  · intro e he
    have := (beforeRunLoop_spec ctx ps []).2 e he
    simpa using this

/-- Hook that succeeds. -/
def okHook : LifecycleHook := fun _ => .ok ()

/-- Hook that throws with the given message. -/
def failHook (msg : String) : LifecycleHook := fun _ => .error msg

/-- Demo plugin whose second before-run hook and first after-run hook
throw. -/
def hookP1 : LoadedPlugin :=
  { definition := { name := "H1" },
    lifecycleHooks := { beforeRun := [okHook, failHook "boom"],
                        afterRun := [failHook "bam", okHook] } }

/-- Demo plugin with one succeeding hook in each pass. -/
def hookP2 : LoadedPlugin :=
  { definition := { name := "H2" },
    lifecycleHooks := { beforeRun := [okHook], afterRun := [okHook] } }

/-- Claim C5, witness: in the demo batch the before-run pass fails on
`H1`'s second hook with the wrapped error, and the executed hooks are a
strict prefix of the schedule, while the after-run pass still executes
every hook of both plugins despite the first one throwing. -/
theorem C5_witness :
    (executeBeforeRunHooks [hookP1, hookP2] {}).error =
      some (beforeRunFailMsg "H1" "boom") ∧
    (∃ tail, beforeHookIds [hookP1, hookP2] =
      (executeBeforeRunHooks [hookP1, hookP2] {}).executed ++ tail) ∧
    (executeAfterRunHooks [hookP1, hookP2] {}).executed =
      afterHookIds [hookP1, hookP2] :=
  ⟨rfl,
    ((C5_lifecycle_failure_semantics [hookP1, hookP2] {}).2.2
      (beforeRunFailMsg "H1" "boom") rfl).1,
    (C5_lifecycle_failure_semantics [hookP1, hookP2] {}).1⟩

theorem insertDesc_perm (p : LoadedPlugin) (l : List LoadedPlugin) :
    List.Perm (insertDesc p l) (p :: l) := by
  induction l with
  | nil => rfl
  | cons q qs ih =>
    rw [insertDesc]
    by_cases hq : q.definition.priority.getD 0 ≤ p.definition.priority.getD 0
    · simp [hq]
    · simp only [hq, if_false]
      exact (ih.cons q).trans (List.Perm.swap p q qs)

theorem byPrioritySort_perm (ps : List LoadedPlugin) :
    List.Perm (byPrioritySort ps) ps := by
  induction ps with
  | nil => rfl
  | cons p rest ih =>
    exact (insertDesc_perm p (byPrioritySort rest)).trans (ih.cons p)

/-- The dependency-graph edge of a batch, on plugin names: `a`
(resolved through the plugin map, last-one-wins) declares `b` among its
dependencies. -/
def DepEdge (ps : List LoadedPlugin) (a b : String) : Prop :=
  ∃ q, pluginMapGet ps a = some q ∧ b ∈ q.definition.dependencies.getD []

/-- The batch's dependency graph contains a cycle. -/
def HasCycle (ps : List LoadedPlugin) : Prop :=
  ∃ n, Relation.TransGen (DepEdge ps) n n

/-- Every element of the list has, for each of its declared
dependencies, an element of that name at a strictly earlier position. -/
def DepClosed (l : List LoadedPlugin) : Prop :=
  ∀ (i : Nat) (hi : i < l.length) (d : String),
    d ∈ (l.get ⟨i, hi⟩).definition.dependencies.getD [] →
    ∃ (j : Nat) (hj : j < l.length), j < i ∧ (l.get ⟨j, hj⟩).definition.name = d

/-- Invariant of the resolve phase: the resolved set is exactly the name
set of the output built so far, the output draws from the batch, and the
output is dependency-closed. -/
def GoodState (ps : List LoadedPlugin)
    (st : List LoadedPlugin × Finset String) : Prop :=
  st.2 = (namesOf st.1).toFinset ∧ (∀ q ∈ st.1, q ∈ ps) ∧ DepClosed st.1

theorem mem_namesOf {l : List LoadedPlugin} {d : String} :
    d ∈ namesOf l ↔ ∃ q ∈ l, q.definition.name = d := by
  simp [namesOf]

theorem namesOf_get {l : List LoadedPlugin} {d : String} (h : d ∈ namesOf l) :
    ∃ (j : Nat) (hj : j < l.length), (l.get ⟨j, hj⟩).definition.name = d := by
  obtain ⟨q, hq, rfl⟩ := mem_namesOf.mp h
  obtain ⟨⟨j, hj⟩, rfl⟩ := List.mem_iff_get.mp hq
  exact ⟨j, hj, rfl⟩

theorem depClosed_append {l : List LoadedPlugin} {p : LoadedPlugin}
    (hl : DepClosed l)
    (hdeps : ∀ d ∈ p.definition.dependencies.getD [], d ∈ namesOf l) :
    DepClosed (l ++ [p]) := by
  intro i hi d hd
  have hi' : i < l.length + 1 := by simpa using hi
  by_cases hlt : i < l.length
  · rw [List.get_append i hlt] at hd
    obtain ⟨j, hj, hji, hname⟩ := hl i hlt d hd
    refine ⟨j, by simp; omega, hji, ?_⟩
    rw [List.get_append j hj, hname]
  · have hieq : i = l.length := by omega
    subst hieq
    have hp : (l ++ [p]).get ⟨l.length, hi⟩ = p := List.get_of_append rfl rfl
    rw [hp] at hd
    obtain ⟨j, hj, hname⟩ := namesOf_get (hdeps d hd)
    refine ⟨j, by simp; omega, hj, ?_⟩
    rw [List.get_append j hj, hname]

theorem goodState_subset {ps : List LoadedPlugin}
    {st st' : List LoadedPlugin × Finset String} (hg : GoodState ps st)
    (hg' : GoodState ps st') (hext : ∃ suf, st'.1 = st.1 ++ suf) :
    st.2 ⊆ st'.2 := by
  obtain ⟨suf, hsuf⟩ := hext
  rw [hg.1, hg'.1, hsuf]
  intro x hx
  rw [List.mem_toFinset] at hx ⊢
  rw [namesOf, List.map_append]
  exact List.mem_append_left _ hx

theorem resolve_inv (ps : List LoadedPlugin) : ∀ fuel : Nat,
    (∀ (p : LoadedPlugin) (st st' : List LoadedPlugin × Finset String),
      p ∈ ps → GoodState ps st → resolveOne ps fuel p st = .ok st' →
      GoodState ps st' ∧ (∃ suf, st'.1 = st.1 ++ suf) ∧
        p.definition.name ∈ st'.2) ∧
    (∀ (ds : List String) (pname : String)
      (st st' : List LoadedPlugin × Finset String),
      GoodState ps st → resolveDeps ps fuel ds pname st = .ok st' →
      GoodState ps st' ∧ (∃ suf, st'.1 = st.1 ++ suf) ∧
        ∀ d ∈ ds, d ∈ st'.2) := by
  intro fuel
  induction fuel with
  | zero =>
    constructor
    · intro p st st' _ _ h
      simp [resolveOne] at h
    · intro ds pname st st' hg h
      cases ds with
      | nil =>
        rw [resolveDeps] at h
        cases h
        exact ⟨hg, ⟨[], by simp⟩, by simp⟩
      | cons d rest =>
        rw [resolveDeps] at h
        split at h
        · exact absurd h (by simp)
        · rw [resolveOne] at h
          simp at h
  | succ fuel ih =>
    have hOne : ∀ (p : LoadedPlugin) (st st' : List LoadedPlugin × Finset String),
        p ∈ ps → GoodState ps st → resolveOne ps (fuel + 1) p st = .ok st' →
        GoodState ps st' ∧ (∃ suf, st'.1 = st.1 ++ suf) ∧
          p.definition.name ∈ st'.2 := by
      intro p st st' hps hg h
      rw [resolveOne] at h
      by_cases hres : p.definition.name ∈ st.2
      · rw [if_pos hres] at h
        cases h
        exact ⟨hg, ⟨[], by simp⟩, hres⟩
      · rw [if_neg hres] at h
        split at h
        · exact absurd h (by simp)
        · rename_i st1 heq
          cases h
          obtain ⟨hg1, ⟨suf, hsuf⟩, hds⟩ := ih.2 _ _ _ _ hg heq
          have hgood : GoodState ps (st1.1 ++ [p], insert p.definition.name st1.2) := by
            refine ⟨?_, ?_, ?_⟩
            · show insert p.definition.name st1.2 =
                (namesOf (st1.1 ++ [p])).toFinset
              rw [hg1.1]
              ext x
              simp only [namesOf, Finset.mem_insert, List.mem_toFinset,
                List.mem_map, List.mem_append, List.mem_singleton]
              constructor
              · rintro (rfl | ⟨q, hq, rfl⟩)
                · exact ⟨p, Or.inr rfl, rfl⟩
                · exact ⟨q, Or.inl hq, rfl⟩
              · rintro ⟨q, hq | hq, rfl⟩
                · exact Or.inr ⟨q, hq, rfl⟩
                · exact Or.inl (by rw [hq])
            · intro q hq
              rcases List.mem_append.mp hq with hq | hq
              · exact hg1.2.1 q hq
              · rw [List.mem_singleton] at hq
                exact hq ▸ hps
            · refine depClosed_append hg1.2.2 ?_
              intro d hd
              have := hds d hd
              rw [hg1.1, List.mem_toFinset] at this
              exact this
          refine ⟨hgood, ⟨suf ++ [p], by rw [hsuf]; simp⟩, ?_⟩
          exact Finset.mem_insert_self _ _
    refine ⟨hOne, ?_⟩
    intro ds
    induction ds with
    | nil =>
      intro pname st st' hg h
      rw [resolveDeps] at h
      cases h
      exact ⟨hg, ⟨[], by simp⟩, by simp⟩
    | cons d rest ihds =>
      intro pname st st' hg h
      rw [resolveDeps] at h
      split at h
      · exact absurd h (by simp)
      · rename_i dp hm
        split at h
        · exact absurd h (by simp)
        · rename_i st1 heq1
          obtain ⟨hg1, hext1, hname1⟩ :=
            hOne dp st st1 (pluginMapGet_spec hm).1 hg heq1
          obtain ⟨hg2, hext2, hmem2⟩ := ihds pname st1 st' hg1 h
          refine ⟨hg2, ?_, ?_⟩
          · obtain ⟨s1, h1⟩ := hext1
            obtain ⟨s2, h2⟩ := hext2
            exact ⟨s1 ++ s2, by rw [h2, h1, List.append_assoc]⟩
          · intro e he
            rcases List.mem_cons.mp he with rfl | he
            · have : dp.definition.name = e := (pluginMapGet_spec hm).2
              exact this ▸ goodState_subset hg1 hg2 hext2 hname1
            · exact hmem2 e he

theorem resolveAll_inv (ps : List LoadedPlugin) :
    ∀ (l0 : List LoadedPlugin) (fuel : Nat)
      (st stF : List LoadedPlugin × Finset String),
    (∀ p ∈ l0, p ∈ ps) → GoodState ps st →
    resolveAll ps fuel l0 st = .ok stF →
    GoodState ps stF ∧ (∃ suf, stF.1 = st.1 ++ suf) ∧
      ∀ p ∈ l0, p.definition.name ∈ stF.2 := by
  intro l0
  induction l0 with
  | nil =>
    intro fuel st stF _ hg h
    rw [resolveAll] at h
    cases h
    exact ⟨hg, ⟨[], by simp⟩, by simp⟩
  | cons p rest ih =>
    intro fuel st stF hmem hg h
    rw [resolveAll] at h
    split at h
    · exact absurd h (by simp)
    · rename_i st1 heq
      obtain ⟨hg1, hext1, hname1⟩ := (resolve_inv ps fuel).1 p st st1
        (hmem p (List.mem_cons_self p rest)) hg heq
      obtain ⟨hgF, hextF, hmemF⟩ := ih fuel st1 stF
        (fun q hq => hmem q (List.mem_cons_of_mem p hq)) hg1 h
      refine ⟨hgF, ?_, ?_⟩
      · obtain ⟨s1, h1⟩ := hext1
        obtain ⟨s2, h2⟩ := hextF
        exact ⟨s1 ++ s2, by rw [h2, h1, List.append_assoc]⟩
      · intro q hq
        rcases List.mem_cons.mp hq with rfl | hq
        · exact goodState_subset hg1 hgF hextF hname1
        · exact hmemF q hq

theorem sort_ok_structure {ps l : List LoadedPlugin}
    (hok : sortPluginsByPriorityAndDependencies ps = .ok l) :
    DepClosed l ∧ (∀ q ∈ l, q ∈ ps) ∧
      (∀ p ∈ ps, p.definition.name ∈ namesOf l) := by
  rw [sortPluginsByPriorityAndDependencies] at hok
  split at hok
  · exact absurd hok (by simp)
  · split at hok
    · exact absurd hok (by simp)
    · rename_i st heq
      cases hok
      have hinit : GoodState ps ([], ∅) := by
        refine ⟨by simp [namesOf], by simp, ?_⟩
        intro i hi
        simp at hi
      obtain ⟨⟨hset, hsub, hclosed⟩, _, hall⟩ := resolveAll_inv ps
        (byPrioritySort ps) (ps.length + 1) ([], ∅) st
        (fun p hp => (byPrioritySort_perm ps).mem_iff.mp hp) hinit heq
      refine ⟨hclosed, hsub, ?_⟩
      intro p hp
      have hmem : p ∈ byPrioritySort ps := (byPrioritySort_perm ps).mem_iff.mpr hp
      have := hall p hmem
      rw [hset, List.mem_toFinset] at this
      exact this

theorem indexOf_le_of_get : ∀ (l : List String) (j : Nat) (hj : j < l.length)
    (b : String), l.get ⟨j, hj⟩ = b → l.indexOf b ≤ j := by
  intro l
  induction l with
  | nil => intro j hj; simp at hj
  | cons a rest ih =>
    intro j hj b hget
    cases j with
    | zero =>
      simp at hget
      subst hget
      simp [List.indexOf_cons]
    | succ j =>
      rw [List.indexOf_cons]
      by_cases hab : a = b
      · simp [hab]
      · have : (a == b) = false := by
          simp [hab]
        rw [this]
        simp only [cond_false]
        have := ih j (by simpa using hj) b (by simpa using hget)
        omega

theorem depEdge_indexOf_lt {ps l : List LoadedPlugin}
    (hnodup : (namesOf ps).Nodup)
    (hclosed : DepClosed l) (hsub : ∀ q ∈ l, q ∈ ps)
    (hall : ∀ p ∈ ps, p.definition.name ∈ namesOf l)
    {a b : String} (hedge : DepEdge ps a b) :
    (namesOf l).indexOf b < (namesOf l).indexOf a ∧
      (namesOf l).indexOf a < (namesOf l).length := by
  obtain ⟨qa, hmap, hb⟩ := hedge
  obtain ⟨hqa_mem, hqa_name⟩ := pluginMapGet_spec hmap
  have ha_mem : a ∈ namesOf l := hqa_name ▸ hall qa hqa_mem
  have hia : (namesOf l).indexOf a < (namesOf l).length :=
    List.indexOf_lt_length.mpr ha_mem
  have hia_l : (namesOf l).indexOf a < l.length := by
    simp only [namesOf, List.length_map] at hia
    exact hia
  have hget_a : (namesOf l).get ⟨(namesOf l).indexOf a, hia⟩ = a :=
    List.indexOf_get hia
  have hget_map : (namesOf l).get ⟨(namesOf l).indexOf a, hia⟩ =
      (l.get ⟨(namesOf l).indexOf a, hia_l⟩).definition.name := by
    simp only [namesOf]
    exact List.get_map _
  set q := l.get ⟨(namesOf l).indexOf a, hia_l⟩ with hq_def
  have hq_name : q.definition.name = a := by rw [← hget_map, hget_a]
  have hq_mem : q ∈ ps := hsub q (List.get_mem l _ _)
  have hq_eq : q = qa := by
    have hinj := List.inj_on_of_nodup_map hnodup
    exact hinj hq_mem hqa_mem (by rw [hq_name, hqa_name])
  have hb_q : b ∈ q.definition.dependencies.getD [] := hq_eq ▸ hb
  obtain ⟨j, hj, hji, hname⟩ := hclosed _ hia_l b hb_q
  have hj' : j < (namesOf l).length := by
    simp only [namesOf, List.length_map]
    exact hj
  have : (namesOf l).get ⟨j, hj'⟩ = b := by
    simp only [namesOf]
    rw [List.get_map]
    exact hname
  have hle := indexOf_le_of_get (namesOf l) j hj' b this
  exact ⟨by omega, hia⟩

/-- Claim C1: whenever the sorter succeeds on a batch with unique names,
every plugin is placed after every plugin it (transitively) depends on:
along any transitive dependency chain `a → … → b`, the (first)
occurrence of `b` in the resolved order strictly precedes that of `a` —
priorities never override dependency edges. -/
theorem C1_dependencies_dominate_priority (ps l : List LoadedPlugin)
    (hnodup : (namesOf ps).Nodup)
    (hok : sortPluginsByPriorityAndDependencies ps = .ok l)
    {a b : String} (hdep : Relation.TransGen (DepEdge ps) a b) :
    (namesOf l).indexOf b < (namesOf l).indexOf a ∧
      (namesOf l).indexOf a < (namesOf l).length := by
  obtain ⟨hclosed, hsub, hall⟩ := sort_ok_structure hok
  induction hdep with
  | single h => exact depEdge_indexOf_lt hnodup hclosed hsub hall h
  | tail _ hstep ih =>
    have h2 := depEdge_indexOf_lt hnodup hclosed hsub hall hstep
    exact ⟨by omega, ih.2⟩

/-- Plugin `A` of the spec's example: priority 100, depends on `B`. -/
def depA : LoadedPlugin :=
  { definition := { name := "A", priority := some 100,
                    dependencies := some ["B"] } }

/-- Plugin `B` of the spec's example: priority 1, no dependencies. -/
def depB : LoadedPlugin :=
  { definition := { name := "B", priority := some 1 } }

/-- Claim C1, witness: for `A` (priority 100, depends on `B`) and `B`
(priority 1), the resolved order is `[B, A]`, and the theorem places `B`
before `A`. -/
theorem C1_witness :
    (namesOf [depA, depB]).Nodup ∧
    sortPluginsByPriorityAndDependencies [depA, depB] = .ok [depB, depA] ∧
    (namesOf [depB, depA]).indexOf "B" < (namesOf [depB, depA]).indexOf "A" := by
  have hnodup : (namesOf [depA, depB]).Nodup := by decide
  have hok : sortPluginsByPriorityAndDependencies [depA, depB] = .ok [depB, depA] := by
    simp [sortPluginsByPriorityAndDependencies, checkCycles, checkCyclesLoop,
      detectCircular, detectCircularDeps, pluginMapGet, depA, depB, nameSet,
      namesOf, resolveAll, resolveOne, resolveDeps, byPrioritySort, insertDesc]
  refine ⟨hnodup, hok, ?_⟩
  have hedge : Relation.TransGen (DepEdge [depA, depB]) "A" "B" :=
    Relation.TransGen.single ⟨depA, rfl, by simp [depA]⟩
  exact (C1_dependencies_dominate_priority [depA, depB] [depB, depA]
    hnodup hok hedge).1

/-- Name `n` cannot reach a dependency cycle (through present plugins). -/
def Clean (ps : List LoadedPlugin) (n : String) : Prop :=
  ∀ m, Relation.ReflTransGen (DepEdge ps) n m →
    ¬ Relation.TransGen (DepEdge ps) m m

theorem depEdge_source_isSome {ps : List LoadedPlugin} {a b : String}
    (h : DepEdge ps a b) : (pluginMapGet ps a).isSome := by
  obtain ⟨q, hq, _⟩ := h
  simp [hq]

theorem cycle_source_isSome {ps : List LoadedPlugin} {m : String}
    (hc : Relation.TransGen (DepEdge ps) m m) :
    (pluginMapGet ps m).isSome := by
  obtain ⟨c, hc1, -⟩ := Relation.TransGen.head'_iff.mp hc
  exact depEdge_source_isSome hc1

theorem reach_cycle_source_isSome {ps : List LoadedPlugin} {y m : String}
    (hr : Relation.ReflTransGen (DepEdge ps) y m)
    (hc : Relation.TransGen (DepEdge ps) m m) :
    (pluginMapGet ps y).isSome := by
  rcases hr.cases_head with rfl | ⟨z, hyz, _⟩
  · exact cycle_source_isSome hc
  · exact depEdge_source_isSome hyz

theorem pluginMapGet_eq_none_iff {ps : List LoadedPlugin} {n : String} :
    pluginMapGet ps n = none ↔ n ∉ namesOf ps := by
  have H : ∀ (l : List LoadedPlugin) (acc : Option LoadedPlugin),
      (l.foldl (fun acc p => if p.definition.name = n then some p else acc) acc
        = none) ↔ (acc = none ∧ ∀ q ∈ l, q.definition.name ≠ n) := by
    intro l
    induction l with
    | nil => intro acc; simp
    | cons p rest ih =>
      intro acc
      rw [List.foldl_cons, ih]
      by_cases hp : p.definition.name = n <;> simp [hp]
  rw [pluginMapGet, H]
  constructor
  · rintro ⟨-, h⟩ hmem
    obtain ⟨q, hq, rfl⟩ := mem_namesOf.mp hmem
    exact h q hq rfl
  · intro h
    exact ⟨rfl, fun q hq hname => h (mem_namesOf.mpr ⟨q, hq, hname⟩)⟩

theorem pluginMapGet_self {ps : List LoadedPlugin} {p : LoadedPlugin}
    (hnodup : (namesOf ps).Nodup) (hp : p ∈ ps) :
    pluginMapGet ps p.definition.name = some p := by
  have hmem : p.definition.name ∈ namesOf ps :=
    mem_namesOf.mpr ⟨p, hp, rfl⟩
  rcases hq : pluginMapGet ps p.definition.name with _ | q
  · exact absurd (pluginMapGet_eq_none_iff.mp hq) (by simp [hmem])
  · obtain ⟨hq_mem, hq_name⟩ := pluginMapGet_spec hq
    have := List.inj_on_of_nodup_map hnodup hq_mem hp hq_name
    rw [this]

/-- Completeness core of the cycle detector: a `none` run of
`detectCircular` leaves every newly visited name unable to reach a
cycle (relative to the caller's stack), provided the plugin record
matches its map entry and all previously finished names were already
clean. -/
theorem detectCircular_complete (ps : List LoadedPlugin) :
    ∀ (p : LoadedPlugin) (hp : p.definition.name ∈ nameSet ps)
      (visited : Finset String) (stack : List String),
      ∀ v', detectCircular ps p hp visited stack = (none, v') →
        pluginMapGet ps p.definition.name = some p →
        (∀ x ∈ visited, x ∉ stack → Clean ps x) →
        visited ⊆ v' ∧ p.definition.name ∈ v' ∧
          ∀ x ∈ v', x ∉ stack → Clean ps x := by
  refine detectCircular.induct ps
    (fun p hp visited stack =>
      ∀ v', detectCircular ps p hp visited stack = (none, v') →
        pluginMapGet ps p.definition.name = some p →
        (∀ x ∈ visited, x ∉ stack → Clean ps x) →
        visited ⊆ v' ∧ p.definition.name ∈ v' ∧
          ∀ x ∈ v', x ∉ stack → Clean ps x)
    (fun ds visited stack =>
      ∀ v', detectCircularDeps ps ds visited stack = (none, v') →
        (∀ x ∈ visited, x ∉ stack → Clean ps x) →
        visited ⊆ v' ∧ (∀ x ∈ v', x ∉ stack → Clean ps x) ∧
          ∀ d ∈ ds, (pluginMapGet ps d).isSome → d ∈ v' ∧ d ∉ stack)
    ?_ ?_ ?_ ?_ ?_ ?_ ?_ ?_
  · -- name on the stack: a cycle is reported, not `none`
    intro p hp visited stack hstk v' hnone
    rw [detectCircular] at hnone
    simp [hstk] at hnone
  · -- name already finished
    intro p hp visited stack hstk hv v' hnone _ hpre
    rw [detectCircular] at hnone
    simp only [dif_neg hstk, dif_pos hv] at hnone
    cases hnone
    exact ⟨Finset.Subset.refl _, hv, hpre⟩
  · -- dependency walk reported a cycle, not `none`
    intro p hp visited stack hstk hv cyc v hdeps _ v' hnone
    rw [detectCircular] at hnone
    simp only [dif_neg hstk, dif_neg hv, hdeps] at hnone
    simp at hnone
  · -- dependency walk finished cleanly: the crux
    intro p hp visited stack hstk hv v hdeps ih v' hnone hrec hpre
    rw [detectCircular] at hnone
    simp only [dif_neg hstk, dif_neg hv, hdeps] at hnone
    cases hnone
    have hpre' : ∀ x ∈ insert p.definition.name visited,
        x ∉ p.definition.name :: stack → Clean ps x := by
      intro x hx hxs
      rcases Finset.mem_insert.mp hx with rfl | hx
      · exact absurd (List.mem_cons_self _ _) hxs
      · exact hpre x hx (fun hmem => hxs (List.mem_cons_of_mem _ hmem))
    obtain ⟨hsub, hclean, hdmem⟩ := ih v hdeps hpre'
    have hname_v : p.definition.name ∈ v :=
      hsub (Finset.mem_insert_self _ _)
    have hclean_name : Clean ps p.definition.name := by
      intro m hreach hcyc
      have hdep_clean : ∀ y, DepEdge ps p.definition.name y →
          (pluginMapGet ps y).isSome → Clean ps y := by
        intro y hy hysome
        obtain ⟨q, hq, hyq⟩ := hy
        rw [hrec] at hq
        cases hq
        obtain ⟨hyv, hyst⟩ := hdmem y hyq hysome
        exact hclean y hyv hyst
      rcases hreach.cases_head with rfl | ⟨y, hy, hym⟩
      · -- the cycle runs through this very name: its first edge leads
        -- to a present dependency that can reach the cycle
        obtain ⟨y, hy, hyr⟩ := Relation.TransGen.head'_iff.mp hcyc
        have hysome : (pluginMapGet ps y).isSome := by
          rcases hyr.cases_head with rfl | ⟨c, hc, _⟩
          · simp [hrec]
          · exact depEdge_source_isSome hc
        exact hdep_clean y hy hysome p.definition.name hyr hcyc
      · -- the cycle lies beyond a first edge into a present dependency
        have hysome : (pluginMapGet ps y).isSome :=
          reach_cycle_source_isSome hym hcyc
        exact hdep_clean y hy hysome m hym hcyc
    refine ⟨fun x hx => hsub (Finset.mem_insert_of_mem hx), hname_v, ?_⟩
    intro x hx hxs
    by_cases hxn : x = p.definition.name
    · exact hxn ▸ hclean_name
    · exact hclean x hx (by
        intro hmem
        rcases List.mem_cons.mp hmem with heq | hmem2
        · exact hxn heq
        · exact hxs hmem2)
  · -- empty dependency list
    intro visited stack v' hnone hpre
    rw [detectCircularDeps] at hnone
    cases hnone
    exact ⟨Finset.Subset.refl _, hpre, by simp⟩
  · -- dependency not in the map: skipped
    intro visited stack d rest hm ih v' hnone hpre
    rw [detectCircularDeps] at hnone
    split at hnone
    · obtain ⟨hsub, hclean, hmem⟩ := ih v' hnone hpre
      refine ⟨hsub, hclean, ?_⟩
      intro e he hesome
      rcases List.mem_cons.mp he with rfl | he
      · rw [hm] at hesome
        simp at hesome
      · exact hmem e he hesome
    · rename_i dp heq
      rw [hm] at heq
      cases heq
  · -- recursive call found a cycle, not `none`
    intro visited stack d rest dp hm cyc v hcall _ v' hnone
    rw [detectCircularDeps] at hnone
    split at hnone
    · rename_i heq
      rw [hm] at heq
      cases heq
    · rename_i dp2 heq
      rw [hm] at heq
      injection heq with heq2
      subst heq2
      split at hnone
      · simp at hnone
      · rename_i v1 hcall2
        rw [hcall] at hcall2
        simp at hcall2
  · -- recursive call returned clean; continue with the rest
    intro visited stack d rest dp hm v hcall ih1 ih2 v' hnone hpre
    rw [detectCircularDeps] at hnone
    split at hnone
    · rename_i heq
      rw [hm] at heq
      cases heq
    · rename_i dp2 heq
      rw [hm] at heq
      injection heq with heq2
      subst heq2
      split at hnone
      · rename_i cyc1 v1 hcall2
        rw [hcall] at hcall2
        simp at hcall2
      · rename_i v1 hcall2
        rw [hcall] at hcall2
        injection hcall2 with hc1 hc2
        subst hc2
        have hrec : pluginMapGet ps dp.definition.name = some dp := by
          rw [(pluginMapGet_spec hm).2, hm]
        obtain ⟨hsub1, hname1, hclean1⟩ := ih1 v hcall hrec hpre
        obtain ⟨hsub2, hclean2, hmem2⟩ := ih2 v' hnone hclean1
        have hdstk : dp.definition.name ∉ stack := by
          intro hmem
          rw [detectCircular] at hcall
          simp [hmem] at hcall
        refine ⟨fun x hx => hsub2 (hsub1 hx), hclean2, ?_⟩
        intro e he hesome
        rcases List.mem_cons.mp he with rfl | he
        · rw [(pluginMapGet_spec hm).2] at hname1 hdstk
          exact ⟨hsub2 hname1, hdstk⟩
        · exact hmem2 e he hesome

theorem checkCyclesLoop_clean (ps : List LoadedPlugin)
    (hnodup : (namesOf ps).Nodup) :
    ∀ (l : List { p : LoadedPlugin // p ∈ ps }) (visited : Finset String),
    checkCyclesLoop ps l visited = none →
    (∀ x ∈ visited, Clean ps x) →
    ∀ pp ∈ l, Clean ps (pp : { p : LoadedPlugin // p ∈ ps }).1.definition.name := by
  intro l
  induction l with
  | nil =>
    intro visited _ _ pp hpp
    simp at hpp
  | cons x rest ih =>
    intro visited hloop hpre pp hpp
    rcases x with ⟨p, hp⟩
    rw [checkCyclesLoop] at hloop
    split at hloop
    · exact absurd hloop (by simp)
    · rename_i v heq
      have hrec := pluginMapGet_self hnodup hp
      obtain ⟨hsub, hname, hclean⟩ := detectCircular_complete ps p _ visited []
        v heq hrec (fun x hx _ => hpre x hx)
      rcases List.mem_cons.mp hpp with rfl | hpp2
      · exact hclean _ hname (by simp)
      · exact ih v hloop (fun x hx => hclean x hx (by simp)) pp hpp2

theorem checkCycles_of_hasCycle {ps : List LoadedPlugin}
    (hnodup : (namesOf ps).Nodup) (hcyc : HasCycle ps) :
    ∃ cyc, checkCycles ps = some cyc := by
  rcases h : checkCycles ps with _ | cyc
  · exfalso
    obtain ⟨n, hn⟩ := hcyc
    obtain ⟨q, hq⟩ := Option.isSome_iff_exists.mp (cycle_source_isSome hn)
    obtain ⟨hq_mem, hq_name⟩ := pluginMapGet_spec hq
    rw [checkCycles] at h
    have hclean := checkCyclesLoop_clean ps hnodup ps.attach ∅ h
      (by simp) ⟨q, hq_mem⟩ (List.mem_attach _ _)
    rw [hq_name] at hclean
    exact hclean n Relation.ReflTransGen.refl hn
  · exact ⟨cyc, rfl⟩

/-- Claim C3: a batch (with unique names) whose dependency graph has a
cycle makes the sorter fail with the circular-dependency error before
any ordering result exists, so the `loadPlugins → applyPluginExtensions`
pipeline ends in the wrapped sort error and `applyPluginExtensions` is
never reached — no extension callback runs and no `ApplyResult` is
produced for that batch. -/
theorem C3_cycle_fails_before_any_apply (ps : List LoadedPlugin)
    (hnodup : (namesOf ps).Nodup) (hcyc : HasCycle ps) :
    (∃ cyc, sortPluginsByPriorityAndDependencies ps = .error (circularMsg cyc)) ∧
    ∀ ctx, ∃ cyc, loadAndApply ps ctx =
      .error ("Failed to sort plugins: " ++ circularMsg cyc) := by
  obtain ⟨cyc, hsome⟩ := checkCycles_of_hasCycle hnodup hcyc
  constructor
  · exact ⟨cyc, by rw [sortPluginsByPriorityAndDependencies, hsome]⟩
  · intro ctx
    refine ⟨cyc, ?_⟩
    rw [loadAndApply, loadPluginsSortStep,
      sortPluginsByPriorityAndDependencies, hsome]

/-- Plugin `A` of the cycle example: depends on `B`. -/
def cycA : LoadedPlugin :=
  { definition := { name := "A", dependencies := some ["B"] } }

/-- Plugin `B` of the cycle example: depends on `A`. -/
def cycB : LoadedPlugin :=
  { definition := { name := "B", dependencies := some ["A"] } }

/-- Claim C3, witness: the two-plugin cycle `A → B → A` fails with the
circular error reporting the traversal path `A -> B -> A`, and the
theorem applies to it. -/
theorem C3_witness :
    (namesOf [cycA, cycB]).Nodup ∧ HasCycle [cycA, cycB] ∧
    sortPluginsByPriorityAndDependencies [cycA, cycB] =
      .error (circularMsg ["A", "B", "A"]) ∧
    (∃ cyc, sortPluginsByPriorityAndDependencies [cycA, cycB] =
      .error (circularMsg cyc)) := by
  have hnodup : (namesOf [cycA, cycB]).Nodup := by decide
  have hcyc : HasCycle [cycA, cycB] := by
    have e1 : DepEdge [cycA, cycB] "A" "B" := ⟨cycA, rfl, by simp [cycA]⟩
    have e2 : DepEdge [cycA, cycB] "B" "A" := ⟨cycB, rfl, by simp [cycB]⟩
    exact ⟨"A", Relation.TransGen.head e1 (Relation.TransGen.single e2)⟩
  refine ⟨hnodup, hcyc, ?_,
    (C3_cycle_fails_before_any_apply [cycA, cycB] hnodup hcyc).1⟩
  simp [sortPluginsByPriorityAndDependencies, checkCycles, checkCyclesLoop,
    detectCircular, detectCircularDeps, pluginMapGet, cycA, cycB, circularMsg]

/-- The cycle detector's stack (most recent first) is a descending
dependency path: each entry is a dependency of the entry below it. -/
def StackChain (ps : List LoadedPlugin) (stack : List String) : Prop :=
  List.Chain' (fun a b => DepEdge ps b a) stack

theorem stackChain_reach {ps : List LoadedPlugin} :
    ∀ (stack : List String), StackChain ps stack →
    ∀ x ∈ stack, ∀ h, stack.head? = some h →
      Relation.ReflTransGen (DepEdge ps) x h := by
  intro stack
  induction stack with
  | nil => intro _ x hx; simp at hx
  | cons a t ih =>
    intro hchain x hx h hh
    simp only [List.head?_cons, Option.some.injEq] at hh
    subst hh
    rcases List.mem_cons.mp hx with rfl | hx
    · exact Relation.ReflTransGen.refl
    · cases t with
      | nil => simp at hx
      | cons b t' =>
        rw [StackChain, List.chain'_cons] at hchain
        have hxb : Relation.ReflTransGen (DepEdge ps) x b :=
          ih hchain.2 x hx b rfl
        exact hxb.tail hchain.1

/-- Soundness core of the cycle detector: a reported cycle implies a
real cycle in the dependency graph, given that the stack is a
dependency path whose head points at the current plugin. -/
theorem detectCircular_sound (ps : List LoadedPlugin) :
    ∀ (p : LoadedPlugin) (hp : p.definition.name ∈ nameSet ps)
      (visited : Finset String) (stack : List String),
      ∀ cyc v, detectCircular ps p hp visited stack = (some cyc, v) →
        pluginMapGet ps p.definition.name = some p →
        StackChain ps stack →
        (∀ h, stack.head? = some h → DepEdge ps h p.definition.name) →
        HasCycle ps := by
  refine detectCircular.induct ps
    (fun p hp visited stack =>
      ∀ cyc v, detectCircular ps p hp visited stack = (some cyc, v) →
        pluginMapGet ps p.definition.name = some p →
        StackChain ps stack →
        (∀ h, stack.head? = some h → DepEdge ps h p.definition.name) →
        HasCycle ps)
    (fun ds visited stack =>
      ∀ cyc v, detectCircularDeps ps ds visited stack = (some cyc, v) →
        StackChain ps stack →
        (∀ d ∈ ds, ∀ h, stack.head? = some h → DepEdge ps h d) →
        HasCycle ps)
    ?_ ?_ ?_ ?_ ?_ ?_ ?_ ?_
  · -- the current name is on the stack: close the loop
    intro p hp visited stack hstk cyc v _ _ hchain hhead
    cases stack with
    | nil => simp at hstk
    | cons h t =>
      have hreach : Relation.ReflTransGen (DepEdge ps) p.definition.name h :=
        stackChain_reach (h :: t) hchain _ hstk h rfl
      have hedge : DepEdge ps h p.definition.name := hhead h rfl
      exact ⟨p.definition.name,
        Relation.TransGen.tail'_iff.mpr ⟨h, hreach, hedge⟩⟩
  · -- already visited: no cycle reported
    intro p hp visited stack hstk hv cyc v hsome
    rw [detectCircular] at hsome
    simp only [dif_neg hstk, dif_pos hv] at hsome
    simp at hsome
  · -- the dependency walk reported the cycle
    intro p hp visited stack hstk hv cyc0 v0 hdeps ih cyc v hsome hrec hchain hhead
    refine ih cyc0 v0 hdeps ?_ ?_
    · cases stack with
      | nil => simp [StackChain]
      | cons h t =>
        rw [StackChain, List.chain'_cons]
        exact ⟨hhead h rfl, hchain⟩
    · intro d hd h hh
      simp only [List.head?_cons, Option.some.injEq] at hh
      subst hh
      exact ⟨p, hrec, hd⟩
  · -- the dependency walk was clean: nothing reported
    intro p hp visited stack hstk hv v0 hdeps _ cyc v hsome
    rw [detectCircular] at hsome
    simp only [dif_neg hstk, dif_neg hv, hdeps] at hsome
    simp at hsome
  · -- empty dependency list: nothing reported
    intro visited stack cyc v hsome
    rw [detectCircularDeps] at hsome
    simp at hsome
  · -- absent dependency: skipped
    intro visited stack d rest hm ih cyc v hsome hchain hhead
    rw [detectCircularDeps] at hsome
    split at hsome
    · exact ih cyc v hsome hchain
        (fun e he h hh => hhead e (List.mem_cons_of_mem d he) h hh)
    · rename_i dp heq
      rw [hm] at heq
      cases heq
  · -- the recursive call reported the cycle
    intro visited stack d rest dp hm cyc0 v0 hcall ih cyc v hsome hchain hhead
    refine ih cyc0 v0 hcall ?_ hchain ?_
    · rw [(pluginMapGet_spec hm).2, hm]
    · intro h hh
      rw [(pluginMapGet_spec hm).2]
      exact hhead d (List.mem_cons_self d rest) h hh
  · -- the recursive call was clean: continue with the rest
    intro visited stack d rest dp hm v0 hcall ih1 ih2 cyc v hsome hchain hhead
    rw [detectCircularDeps] at hsome
    split at hsome
    · rename_i heq
      rw [hm] at heq
      cases heq
    · rename_i dp2 heq
      rw [hm] at heq
      injection heq with heq2
      subst heq2
      split at hsome
      · rename_i cyc1 v1 hcall2
        rw [hcall] at hcall2
        simp at hcall2
      · rename_i v1 hcall2
        rw [hcall] at hcall2
        injection hcall2 with hc1 hc2
        subst hc2
        exact ih2 cyc v hsome hchain
          (fun e he h hh => hhead e (List.mem_cons_of_mem d he) h hh)

theorem checkCyclesLoop_sound (ps : List LoadedPlugin)
    (hnodup : (namesOf ps).Nodup) :
    ∀ (l : List { p : LoadedPlugin // p ∈ ps }) (visited : Finset String)
      (cyc : List String),
    checkCyclesLoop ps l visited = some cyc → HasCycle ps := by
  intro l
  induction l with
  | nil => intro visited cyc h; simp [checkCyclesLoop] at h
  | cons x rest ih =>
    intro visited cyc h
    rcases x with ⟨p, hp⟩
    rw [checkCyclesLoop] at h
    split at h
    · rename_i cyc0 v heq
      exact detectCircular_sound ps p _ visited [] cyc0 v heq
        (pluginMapGet_self hnodup hp) (by simp [StackChain]) (by simp)
    · rename_i v heq
      exact ih v cyc h

theorem checkCycles_eq_none {ps : List LoadedPlugin}
    (hnodup : (namesOf ps).Nodup) (hacyc : ¬ HasCycle ps) :
    checkCycles ps = none := by
  rcases h : checkCycles ps with _ | cyc
  · rfl
  · rw [checkCycles] at h
    exact absurd (checkCyclesLoop_sound ps hnodup ps.attach ∅ cyc h) hacyc

theorem chain_to_transGen {α : Type} {r : α → α → Prop} :
    ∀ {l : List α} {a : α}, List.Chain r a l →
      ∀ b ∈ l, Relation.TransGen r a b := by
  intro l
  induction l with
  | nil => intro a _ b hb; simp at hb
  | cons c l' ih =>
    intro a hchain b hb
    rw [List.chain_cons] at hchain
    rcases List.mem_cons.mp hb with rfl | hb
    · exact Relation.TransGen.single hchain.1
    · exact Relation.TransGen.head hchain.1 (ih hchain.2 b hb)

theorem chain_pair_sublist_cycle {α : Type} {r : α → α → Prop} {x : α} :
    ∀ (l : List α) (a : α), List.Chain r a l →
      List.Sublist [x, x] (a :: l) → Relation.TransGen r x x := by
  intro l
  induction l with
  | nil =>
    intro a _ hsub
    have := hsub.length_le
    simp at this
  | cons c l' ih =>
    intro a hchain hsub
    rw [List.chain_cons] at hchain
    cases hsub with
    | cons _ hsub2 => exact ih c hchain.2 hsub2
    | cons₂ _ hsub2 =>
      have hx_mem : x ∈ c :: l' := hsub2.subset (List.mem_singleton_self x)
      exact chain_to_transGen (List.chain_cons.mpr hchain) x hx_mem

theorem chain_nodup_of_acyclic {ps : List LoadedPlugin}
    (hacyc : ¬ HasCycle ps) {a : String} {l : List String}
    (hchain : List.Chain (DepEdge ps) a l) : (a :: l).Nodup := by
  by_contra hdup
  rw [List.nodup_iff_sublist] at hdup
  push_neg at hdup
  obtain ⟨x, hx⟩ := hdup
  exact hacyc ⟨x, chain_pair_sublist_cycle l a hchain hx⟩

theorem chain_dropLast_sources {ps : List LoadedPlugin} :
    ∀ (l : List String) (a : String), List.Chain (DepEdge ps) a l →
      ∀ x ∈ (a :: l).dropLast, ∃ y, DepEdge ps x y := by
  intro l
  induction l with
  | nil => intro a _ x hx; simp at hx
  | cons c l' ih =>
    intro a hchain x hx
    rw [List.chain_cons] at hchain
    rw [List.dropLast_cons₂] at hx
    rcases List.mem_cons.mp hx with rfl | hx
    · exact ⟨c, hchain.1⟩
    · exact ih c hchain.2 x hx

theorem chain_length_le {ps : List LoadedPlugin} (hacyc : ¬ HasCycle ps)
    {a : String} {l : List String}
    (hchain : List.Chain (DepEdge ps) a l) : l.length ≤ ps.length := by
  have hnodup : ((a :: l).dropLast).Nodup :=
    (List.dropLast_sublist _).nodup (chain_nodup_of_acyclic hacyc hchain)
  have hsubset : ∀ x ∈ (a :: l).dropLast, x ∈ namesOf ps := by
    intro x hx
    obtain ⟨y, hy⟩ := chain_dropLast_sources l a hchain x hx
    obtain ⟨q, hq, -⟩ := hy
    exact mem_namesOf.mpr ⟨q, (pluginMapGet_spec hq).1, (pluginMapGet_spec hq).2⟩
  have hlen : ((a :: l).dropLast).length ≤ (namesOf ps).toFinset.card := by
    have hsub : ((a :: l).dropLast).toFinset ⊆ (namesOf ps).toFinset := by
      intro x hx
      rw [List.mem_toFinset] at hx ⊢
      exact hsubset x hx
    calc ((a :: l).dropLast).length = ((a :: l).dropLast).toFinset.card :=
          (List.toFinset_card_of_nodup hnodup).symm
      _ ≤ (namesOf ps).toFinset.card := Finset.card_le_card hsub
  have hcard : (namesOf ps).toFinset.card ≤ ps.length := by
    calc (namesOf ps).toFinset.card ≤ (namesOf ps).length :=
          List.toFinset_card_le _
      _ = ps.length := by simp [namesOf]
  have : ((a :: l).dropLast).length = l.length := by
    simp
  omega

theorem missingDepMsg_ne_fuelMsg (n d : String) :
    missingDepMsg n d ≠ fuelMsg := by
  intro h
  have hp : (missingDepMsg n d).data.head? = some (Char.ofNat 80) := rfl
  rw [h] at hp
  have hr : fuelMsg.data.head? = some (Char.ofNat 82) := rfl
  rw [hr] at hp
  simp at hp

theorem circularMsg_ne_missingDepMsg (cyc : List String) (n d : String) :
    circularMsg cyc ≠ missingDepMsg n d := by
  intro h
  have hc : (circularMsg cyc).data.head? = some (Char.ofNat 67) := rfl
  rw [h] at hc
  have hp : (missingDepMsg n d).data.head? = some (Char.ofNat 80) := rfl
  rw [hp] at hc
  simp at hc

theorem resolve_fuel (ps : List LoadedPlugin) : ∀ fuel : Nat,
    (∀ (p : LoadedPlugin) (st : List LoadedPlugin × Finset String),
      pluginMapGet ps p.definition.name = some p →
      (∀ l, List.Chain (DepEdge ps) p.definition.name l → l.length < fuel) →
      resolveOne ps fuel p st ≠ .error fuelMsg) ∧
    (∀ (ds : List String) (pname : String)
      (st : List LoadedPlugin × Finset String),
      (∀ d ∈ ds, ∀ dp, pluginMapGet ps d = some dp →
        ∀ l, List.Chain (DepEdge ps) d l → l.length < fuel) →
      resolveDeps ps fuel ds pname st ≠ .error fuelMsg) := by
  intro fuel
  induction fuel with
  | zero =>
    constructor
    · intro p st _ hbnd
      exact absurd (hbnd [] List.Chain.nil) (by simp)
    · intro ds pname st hbnd
      cases ds with
      | nil => rw [resolveDeps]; simp
      | cons d rest =>
        rw [resolveDeps]
        split
        · intro h
          exact missingDepMsg_ne_fuelMsg pname d (by injection h)
        · rename_i dp hm
          exact absurd (hbnd d (List.mem_cons_self d rest) dp hm [] List.Chain.nil)
            (by simp)
  | succ fuel ih =>
    have hOne : ∀ (p : LoadedPlugin) (st : List LoadedPlugin × Finset String),
        pluginMapGet ps p.definition.name = some p →
        (∀ l, List.Chain (DepEdge ps) p.definition.name l → l.length < fuel + 1) →
        resolveOne ps (fuel + 1) p st ≠ .error fuelMsg := by
      intro p st hrec hbnd
      rw [resolveOne]
      by_cases hres : p.definition.name ∈ st.2
      · simp [hres]
      · rw [if_neg hres]
        have hdeps_bnd : ∀ d ∈ p.definition.dependencies.getD [], ∀ dp,
            pluginMapGet ps d = some dp →
            ∀ l, List.Chain (DepEdge ps) d l → l.length < fuel := by
          intro d hd dp _ l hchain
          have : List.Chain (DepEdge ps) p.definition.name (d :: l) :=
            List.chain_cons.mpr ⟨⟨p, hrec, hd⟩, hchain⟩
          have := hbnd (d :: l) this
          simp at this
          omega
        have hne := ih.2 (p.definition.dependencies.getD [])
          p.definition.name st hdeps_bnd
        split
        · rename_i e heq
          intro h
          injection h with h2
          exact hne (by rw [heq, h2])
        · simp
    refine ⟨hOne, ?_⟩
    intro ds
    induction ds with
    | nil => intro pname st _; rw [resolveDeps]; simp
    | cons d rest ihds =>
      intro pname st hbnd
      rw [resolveDeps]
      split
      · intro h
        exact missingDepMsg_ne_fuelMsg pname d (by injection h)
      · rename_i dp hm
        have hrec : pluginMapGet ps dp.definition.name = some dp := by
          rw [(pluginMapGet_spec hm).2, hm]
        have hbd : ∀ l, List.Chain (DepEdge ps) dp.definition.name l →
            l.length < fuel + 1 := by
          rw [(pluginMapGet_spec hm).2]
          exact fun l hl => hbnd d (List.mem_cons_self d rest) dp hm l hl
        split
        · rename_i e heq
          intro h
          injection h with h2
          exact hOne dp st hrec hbd (by rw [heq, h2])
        · rename_i st1 heq
          exact ihds pname st1
            (fun e he dp2 hm2 l hl => hbnd e (List.mem_cons_of_mem d he) dp2 hm2 l hl)

theorem resolveAll_ne_fuel {ps : List LoadedPlugin}
    (hnodup : (namesOf ps).Nodup) (hacyc : ¬ HasCycle ps) :
    ∀ (l0 : List LoadedPlugin) (st : List LoadedPlugin × Finset String),
    (∀ p ∈ l0, p ∈ ps) →
    resolveAll ps (ps.length + 1) l0 st ≠ .error fuelMsg := by
  intro l0
  induction l0 with
  | nil => intro st _; rw [resolveAll]; simp
  | cons p rest ih =>
    intro st hmem
    rw [resolveAll]
    have hrec := pluginMapGet_self hnodup (hmem p (List.mem_cons_self p rest))
    have hbnd : ∀ l, List.Chain (DepEdge ps) p.definition.name l →
        l.length < ps.length + 1 := by
      intro l hl
      have := chain_length_le hacyc hl
      omega
    split
    · rename_i e heq
      intro h
      injection h with h2
      exact (resolve_fuel ps (ps.length + 1)).1 p st hrec hbnd (by rw [heq, h2])
    · rename_i st1 heq
      exact ih st1 (fun q hq => hmem q (List.mem_cons_of_mem p hq))

/-- The only genuine error of the resolve phase: a missing-dependency
message naming a batch plugin and one of its dependencies that is
absent from the batch. -/
def MissingShape (ps : List LoadedPlugin) (e : String) : Prop :=
  ∃ n d, e = missingDepMsg n d ∧
    (∃ q ∈ ps, q.definition.name = n ∧
      d ∈ q.definition.dependencies.getD []) ∧
    d ∉ namesOf ps

theorem resolve_err_shape (ps : List LoadedPlugin) : ∀ fuel : Nat,
    (∀ (p : LoadedPlugin) (st : List LoadedPlugin × Finset String) (e : String),
      p ∈ ps → pluginMapGet ps p.definition.name = some p →
      resolveOne ps fuel p st = .error e → e = fuelMsg ∨ MissingShape ps e) ∧
    (∀ (ds : List String) (pname : String)
      (st : List LoadedPlugin × Finset String) (e : String),
      (∃ q ∈ ps, q.definition.name = pname ∧
        ∀ d ∈ ds, d ∈ q.definition.dependencies.getD []) →
      resolveDeps ps fuel ds pname st = .error e →
      e = fuelMsg ∨ MissingShape ps e) := by
  intro fuel
  induction fuel with
  | zero =>
    constructor
    · intro p st e _ _ h
      rw [resolveOne] at h
      injection h with h2
      exact Or.inl h2.symm
    · intro ds pname st e hq h
      cases ds with
      | nil =>
        rw [resolveDeps] at h
        exact absurd h (by simp)
      | cons d rest =>
        rw [resolveDeps] at h
        split at h
        · rename_i hm
          injection h with h2
          refine Or.inr ⟨pname, d, h2.symm, ?_, pluginMapGet_eq_none_iff.mp hm⟩
          obtain ⟨q, hq_mem, hq_name, hq_deps⟩ := hq
          exact ⟨q, hq_mem, hq_name, hq_deps d (List.mem_cons_self d rest)⟩
        · rename_i dp hm
          have hzero : resolveOne ps 0 dp st = Except.error fuelMsg := by
            rw [resolveOne]
          rw [hzero] at h
          injection h with h2
          exact Or.inl h2.symm
  | succ fuel ih =>
    have hOne : ∀ (p : LoadedPlugin) (st : List LoadedPlugin × Finset String)
        (e : String), p ∈ ps → pluginMapGet ps p.definition.name = some p →
        resolveOne ps (fuel + 1) p st = .error e →
        e = fuelMsg ∨ MissingShape ps e := by
      intro p st e hps hrec h
      rw [resolveOne] at h
      by_cases hres : p.definition.name ∈ st.2
      · rw [if_pos hres] at h
        exact absurd h (by simp)
      · rw [if_neg hres] at h
        split at h
        · rename_i e1 heq
          injection h with h2
          subst h2
          exact ih.2 (p.definition.dependencies.getD []) p.definition.name st e1
            ⟨p, hps, rfl, fun d hd => hd⟩ heq
        · exact absurd h (by simp)
    refine ⟨hOne, ?_⟩
    intro ds
    induction ds with
    | nil =>
      intro pname st e _ h
      rw [resolveDeps] at h
      exact absurd h (by simp)
    | cons d rest ihds =>
      intro pname st e hq h
      rw [resolveDeps] at h
      split at h
      · rename_i hm
        injection h with h2
        refine Or.inr ⟨pname, d, h2.symm, ?_, pluginMapGet_eq_none_iff.mp hm⟩
        obtain ⟨q, hq_mem, hq_name, hq_deps⟩ := hq
        exact ⟨q, hq_mem, hq_name, hq_deps d (List.mem_cons_self d rest)⟩
      · rename_i dp hm
        have hrec : pluginMapGet ps dp.definition.name = some dp := by
          rw [(pluginMapGet_spec hm).2, hm]
        split at h
        · rename_i e1 heq
          injection h with h2
          subst h2
          exact hOne dp st e1 (pluginMapGet_spec hm).1 hrec heq
        · rename_i st1 heq
          obtain ⟨q, hq_mem, hq_name, hq_deps⟩ := hq
          exact ihds pname st1 e
            ⟨q, hq_mem, hq_name, fun d2 hd2 => hq_deps d2 (List.mem_cons_of_mem d hd2)⟩ h

theorem resolveAll_err_shape {ps : List LoadedPlugin}
    (hnodup : (namesOf ps).Nodup) :
    ∀ (l0 : List LoadedPlugin) (fuel : Nat)
      (st : List LoadedPlugin × Finset String) (e : String),
    (∀ p ∈ l0, p ∈ ps) → resolveAll ps fuel l0 st = .error e →
    e = fuelMsg ∨ MissingShape ps e := by
  intro l0
  induction l0 with
  | nil =>
    intro fuel st e _ h
    rw [resolveAll] at h
    exact absurd h (by simp)
  | cons p rest ih =>
    intro fuel st e hmem h
    rw [resolveAll] at h
    split at h
    · rename_i e1 heq
      injection h with h2
      subst h2
      exact (resolve_err_shape ps fuel).1 p st e1
        (hmem p (List.mem_cons_self p rest))
        (pluginMapGet_self hnodup (hmem p (List.mem_cons_self p rest))) heq
    · rename_i st1 heq
      exact ih fuel st1 e (fun q hq => hmem q (List.mem_cons_of_mem p hq)) h

theorem resolveAll_ok_impossible_of_missing {ps : List LoadedPlugin}
    (hnodup : (namesOf ps).Nodup)
    (hmissing : ∃ p ∈ ps, ∃ d ∈ p.definition.dependencies.getD [],
      d ∉ namesOf ps) :
    ∀ st2, resolveAll ps (ps.length + 1) (byPrioritySort ps) ([], ∅) ≠ .ok st2 := by
  intro st2 hok
  have hinit : GoodState ps ([], ∅) := by
    refine ⟨by simp [namesOf], by simp, ?_⟩
    intro i hi
    simp at hi
  obtain ⟨⟨hset, hsub, hclosed⟩, -, hall⟩ := resolveAll_inv ps
    (byPrioritySort ps) (ps.length + 1) ([], ∅) st2
    (fun p hp => (byPrioritySort_perm ps).mem_iff.mp hp) hinit hok
  obtain ⟨p, hp, d, hd, hdnot⟩ := hmissing
  have hpname : p.definition.name ∈ namesOf st2.1 := by
    have := hall p ((byPrioritySort_perm ps).mem_iff.mpr hp)
    rw [hset, List.mem_toFinset] at this
    exact this
  obtain ⟨j, hj, hname⟩ := namesOf_get hpname
  have hjp : st2.1.get ⟨j, hj⟩ = p :=
    List.inj_on_of_nodup_map hnodup (hsub _ (List.get_mem _ _ _)) hp hname
  obtain ⟨k, hk, -, hkname⟩ := hclosed j hj d (by rw [hjp]; exact hd)
  exact hdnot (mem_namesOf.mpr
    ⟨st2.1.get ⟨k, hk⟩, hsub _ (List.get_mem _ _ _), hkname⟩)

/-- Claim C8 (amended): in a batch with unique names whose dependency
graph is acyclic, a dependency name absent from the batch makes the
sorter fail with the missing-dependency error, which names a dependent
plugin of the batch together with its missing dependency name; no
ordering result is produced. (The acyclicity proviso is forced: a batch
that also contains a cycle fails with the circular-dependency error
instead, which names no missing dependency.) -/
theorem C8_missing_dependency_fails (ps : List LoadedPlugin)
    (hnodup : (namesOf ps).Nodup) (hacyc : ¬ HasCycle ps)
    (hmissing : ∃ p ∈ ps, ∃ d ∈ p.definition.dependencies.getD [],
      d ∉ namesOf ps) :
    ∃ n d, sortPluginsByPriorityAndDependencies ps = .error (missingDepMsg n d) ∧
      (∃ q ∈ ps, q.definition.name = n ∧
        d ∈ q.definition.dependencies.getD []) ∧
      d ∉ namesOf ps := by
  rw [sortPluginsByPriorityAndDependencies, checkCycles_eq_none hnodup hacyc]
  rcases hres : resolveAll ps (ps.length + 1) (byPrioritySort ps) ([], ∅)
    with e | st2
  · rcases resolveAll_err_shape hnodup (byPrioritySort ps) (ps.length + 1)
      ([], ∅) e (fun p hp => (byPrioritySort_perm ps).mem_iff.mp hp) hres
      with rfl | ⟨n, d, rfl, hq, hd⟩
    · exact absurd hres (resolveAll_ne_fuel hnodup hacyc (byPrioritySort ps)
        ([], ∅) (fun p hp => (byPrioritySort_perm ps).mem_iff.mp hp))
    · exact ⟨n, d, rfl, hq, hd⟩
  · exact absurd hres (resolveAll_ok_impossible_of_missing hnodup hmissing st2)

/-- Plugin with a self-cycle *and* a missing dependency: depends on
itself and on the absent `Z`. -/
def selfA : LoadedPlugin :=
  { definition := { name := "A", dependencies := some ["A", "Z"] } }

/-- Claim C8, counterexample: the batch `[A]` where `A` depends on
itself and on the absent `Z` contains a missing dependency, yet ordering
fails with the circular-dependency error `A -> A` — an error that is not
of the missing-dependency form, so it names no missing dependency. The
claim, quantified over *every* batch with a missing dependency, is
therefore false as stated. -/
theorem C8_counterexample :
    (∃ p ∈ [selfA], ∃ d ∈ p.definition.dependencies.getD [],
      d ∉ namesOf [selfA]) ∧
    sortPluginsByPriorityAndDependencies [selfA] =
      .error (circularMsg ["A", "A"]) ∧
    ¬ ∃ n d, sortPluginsByPriorityAndDependencies [selfA] =
      .error (missingDepMsg n d) := by
  have hsort : sortPluginsByPriorityAndDependencies [selfA] =
      .error (circularMsg ["A", "A"]) := by
    simp [sortPluginsByPriorityAndDependencies, checkCycles, checkCyclesLoop,
      detectCircular, detectCircularDeps, pluginMapGet, selfA]
  refine ⟨⟨selfA, by simp, "Z", by simp [selfA], by simp [namesOf, selfA]⟩,
    hsort, ?_⟩
  rintro ⟨n, d, heq⟩
  rw [hsort] at heq
  injection heq with heq2
  exact circularMsg_ne_missingDepMsg ["A", "A"] n d heq2

/-- Plugin `W` depending on the absent `Z` (and on nothing else). -/
def missW : LoadedPlugin :=
  { definition := { name := "W", dependencies := some ["Z"] } }

/-- Claim C8, witness: the singleton acyclic batch `[W]`, where `W`
depends on the absent `Z`, satisfies the amended theorem's hypotheses,
and the sorter indeed fails with the message naming `W` and `Z`. -/
theorem C8_witness :
    (namesOf [missW]).Nodup ∧ ¬ HasCycle [missW] ∧
    sortPluginsByPriorityAndDependencies [missW] =
      .error (missingDepMsg "W" "Z") ∧
    (∃ n d, sortPluginsByPriorityAndDependencies [missW] =
      .error (missingDepMsg n d) ∧
      (∃ q ∈ [missW], q.definition.name = n ∧
        d ∈ q.definition.dependencies.getD []) ∧
      d ∉ namesOf [missW]) := by
  have hnodup : (namesOf [missW]).Nodup := by decide
  have hacyc : ¬ HasCycle [missW] := by
    rintro ⟨n, hn⟩
    obtain ⟨b, -, hbn⟩ := Relation.TransGen.tail'_iff.mp hn
    obtain ⟨q, hq, hdep⟩ := hbn
    have hq_mem := (pluginMapGet_spec hq).1
    simp only [List.mem_singleton] at hq_mem
    subst hq_mem
    simp only [missW] at hdep
    simp at hdep
    subst hdep
    have := cycle_source_isSome hn
    have hz : pluginMapGet [missW] "Z" = none := rfl
    rw [hz] at this
    simp at this
  have hmissing : ∃ p ∈ [missW], ∃ d ∈ p.definition.dependencies.getD [],
      d ∉ namesOf [missW] :=
    ⟨missW, by simp, "Z", by simp [missW], by simp [namesOf, missW]⟩
  refine ⟨hnodup, hacyc, ?_,
    C8_missing_dependency_fails [missW] hnodup hacyc hmissing⟩
  simp [sortPluginsByPriorityAndDependencies, checkCycles, checkCyclesLoop,
    detectCircular, detectCircularDeps, pluginMapGet, missW, byPrioritySort,
    insertDesc, resolveAll, resolveOne, resolveDeps]

/-- The effective priority of a plugin (`priority || 0`). -/
def prioOf (p : LoadedPlugin) : Int := p.definition.priority.getD 0

theorem insertDesc_pairwise (p : LoadedPlugin) (l : List LoadedPlugin)
    (h : List.Pairwise (fun a b => prioOf b ≤ prioOf a) l) :
    List.Pairwise (fun a b => prioOf b ≤ prioOf a) (insertDesc p l) := by
  induction l with
  | nil => simp [insertDesc]
  | cons q qs ih =>
    rw [insertDesc]
    rw [List.pairwise_cons] at h
    by_cases hq : q.definition.priority.getD 0 ≤ p.definition.priority.getD 0
    · simp only [hq, if_true]
      refine List.Pairwise.cons ?_ (List.Pairwise.cons h.1 h.2)
      intro x hx
      rcases List.mem_cons.mp hx with rfl | hx
      · exact hq
      · exact le_trans (h.1 x hx) hq
    · simp only [hq, if_false]
      refine List.Pairwise.cons ?_ (ih h.2)
      intro x hx
      rcases List.mem_cons.mp ((insertDesc_perm p qs).mem_iff.mp hx) with rfl | hx
      · exact le_of_lt (lt_of_not_ge hq)
      · exact h.1 x hx

theorem byPrioritySort_pairwise (ps : List LoadedPlugin) :
    List.Pairwise (fun a b => prioOf b ≤ prioOf a) (byPrioritySort ps) := by
  induction ps with
  | nil => simp [byPrioritySort]
  | cons p rest ih => exact insertDesc_pairwise p _ ih

theorem filter_insertDesc (v : Int) (p : LoadedPlugin) (l : List LoadedPlugin) :
    (insertDesc p l).filter (fun q => prioOf q == v) =
      if prioOf p == v then p :: l.filter (fun q => prioOf q == v)
      else l.filter (fun q => prioOf q == v) := by
  induction l with
  | nil =>
    by_cases hp : prioOf p == v <;> simp [insertDesc, List.filter, hp]
  | cons q qs ih =>
    rw [insertDesc]
    by_cases hq : q.definition.priority.getD 0 ≤ p.definition.priority.getD 0
    · by_cases hp : prioOf p == v <;>
        simp [hq, List.filter_cons, hp]
    · simp only [hq, if_false, List.filter_cons]
      by_cases hqv : prioOf q == v
      · have hpv : ¬(prioOf p == v) := by
          intro hpv
          apply hq
          have h1 : prioOf q = v := by simpa using hqv
          have h2 : prioOf p = v := by simpa using hpv
          simp only [prioOf] at h1 h2
          omega
        simp [hqv, ih, hpv]
      · by_cases hp : prioOf p == v <;> simp [hqv, ih, hp]

theorem filter_byPrioritySort (v : Int) (ps : List LoadedPlugin) :
    (byPrioritySort ps).filter (fun q => prioOf q == v) =
      ps.filter (fun q => prioOf q == v) := by
  induction ps with
  | nil => rfl
  | cons p rest ih =>
    rw [byPrioritySort, filter_insertDesc, List.filter_cons]
    by_cases hp : prioOf p == v <;> simp [hp, ih]

theorem checkCyclesLoop_noDeps (ps : List LoadedPlugin)
    (hdeps : ∀ p ∈ ps, p.definition.dependencies.getD [] = []) :
    ∀ (l : List { p : LoadedPlugin // p ∈ ps }) (visited : Finset String),
    checkCyclesLoop ps l visited = none := by
  intro l
  induction l with
  | nil => intro visited; rfl
  | cons x rest ih =>
    intro visited
    rcases x with ⟨p, hp⟩
    rw [checkCyclesLoop]
    by_cases hv : p.definition.name ∈ visited <;>
      simp [detectCircular, hv, hdeps p hp, detectCircularDeps, ih]

theorem resolveAll_noDeps (ps : List LoadedPlugin) :
    ∀ (l : List LoadedPlugin) (fuel : Nat) (sorted : List LoadedPlugin)
      (resolvedSet : Finset String),
    (∀ p ∈ l, p.definition.dependencies.getD [] = []) →
    (∀ p ∈ l, p.definition.name ∉ resolvedSet) →
    (namesOf l).Nodup →
    1 ≤ fuel →
    ∃ rset, resolveAll ps fuel l (sorted, resolvedSet) = .ok (sorted ++ l, rset) := by
  intro l
  induction l with
  | nil => intro fuel sorted rset _ _ _ _; exact ⟨rset, by simp [resolveAll]⟩
  | cons p rest ih =>
    intro fuel sorted resolvedSet hdeps hfresh hnodup hfuel
    obtain ⟨f, rfl⟩ : ∃ f, fuel = f + 1 := ⟨fuel - 1, by omega⟩
    rw [resolveAll, resolveOne]
    simp only [hfresh p (List.mem_cons_self p rest), if_false,
      hdeps p (List.mem_cons_self p rest), resolveDeps]
    have hrest : ∀ q ∈ rest, q.definition.name ∉
        insert p.definition.name resolvedSet := by
      intro q hq
      rw [Finset.mem_insert]
      rintro (heq | hmem)
      · rw [namesOf, List.map_cons, List.nodup_cons] at hnodup
        exact hnodup.1 (heq ▸ List.mem_map_of_mem _ hq)
      · exact hfresh q (List.mem_cons_of_mem p hq) hmem
    have hnodup' : (namesOf rest).Nodup := by
      rw [namesOf, List.map_cons, List.nodup_cons] at hnodup
      exact hnodup.2
    obtain ⟨rset, hr⟩ := ih (f + 1) (sorted ++ [p])
      (insert p.definition.name resolvedSet)
      (fun q hq => hdeps q (List.mem_cons_of_mem p hq)) hrest hnodup' (by omega)
    refine ⟨rset, ?_⟩
    rw [hr]
    simp

/-- Claim C9: for a batch in which no plugin declares dependencies (and,
per the loader invariant, names are unique), the resolved order is
exactly the stable descending-priority sort of the input batch
(priority defaulting to 0): the output is `byPrioritySort`, which is
pairwise descending on effective priority and, for every priority
value, keeps the batch's original relative order of the plugins having
that priority (stability). -/
theorem C9_no_deps_order_is_stable_priority_sort (ps : List LoadedPlugin)
    (hnodup : (namesOf ps).Nodup)
    (hdeps : ∀ p ∈ ps, p.definition.dependencies.getD [] = []) :
    sortPluginsByPriorityAndDependencies ps = .ok (byPrioritySort ps) ∧
    List.Pairwise (fun a b => prioOf b ≤ prioOf a) (byPrioritySort ps) ∧
    ∀ v : Int, (byPrioritySort ps).filter (fun q => prioOf q == v) =
      ps.filter (fun q => prioOf q == v) := by
  refine ⟨?_, byPrioritySort_pairwise ps, fun v => filter_byPrioritySort v ps⟩
  rw [sortPluginsByPriorityAndDependencies, checkCycles,
    checkCyclesLoop_noDeps ps hdeps]
  have hmem : ∀ p ∈ byPrioritySort ps, p ∈ ps :=
    fun p hp => (byPrioritySort_perm ps).mem_iff.mp hp
  have hnodup' : (namesOf (byPrioritySort ps)).Nodup := by
    have : List.Perm (namesOf (byPrioritySort ps)) (namesOf ps) :=
      (byPrioritySort_perm ps).map _
    exact this.nodup_iff.mpr hnodup
  obtain ⟨rset, hr⟩ := resolveAll_noDeps ps (byPrioritySort ps) (ps.length + 1)
    [] ∅ (fun p hp => hdeps p (hmem p hp)) (fun p _ => Finset.not_mem_empty _)
    hnodup' (by omega)
  rw [hr]
  simp

/-- Plugin `P1{priority:10}` of the spec's priority example. -/
def prioP1 : LoadedPlugin := { definition := { name := "P1", priority := some 10 } }

/-- Plugin `P2{priority:5}` of the spec's priority example. -/
def prioP2 : LoadedPlugin := { definition := { name := "P2", priority := some 5 } }

/-- Plugin `P3{priority:1}` of the spec's priority example. -/
def prioP3 : LoadedPlugin := { definition := { name := "P3", priority := some 1 } }

/-- Claim C9, witness: the spec's example `P1{10}, P2{5}, P3{1}` with no
dependencies resolves to `[P1, P2, P3]`. -/
theorem C9_witness :
    (namesOf [prioP1, prioP2, prioP3]).Nodup ∧
    (∀ p ∈ [prioP1, prioP2, prioP3], p.definition.dependencies.getD [] = []) ∧
    sortPluginsByPriorityAndDependencies [prioP1, prioP2, prioP3] =
      .ok [prioP1, prioP2, prioP3] := by
  refine ⟨by decide, ?_, ?_⟩
  · intro p hp
    simp only [List.mem_cons, List.not_mem_nil, or_false] at hp
    rcases hp with rfl | rfl | rfl <;> rfl
  · exact (C9_no_deps_order_is_stable_priority_sort [prioP1, prioP2, prioP3]
      (by decide)
      (by
        intro p hp
        simp only [List.mem_cons, List.not_mem_nil, or_false] at hp
        rcases hp with rfl | rfl | rfl <;> rfl)).1

/-- Claim C7, witness: the amended theorem applied at the concrete
sequences `[5]` and `[6]`. -/
theorem C7_witness :
    aget (applyPluginExtensions [mergeP1 [.num 5], mergeP2 [.num 6]] {}).owners
      "global.items" = some ⟨"P1", "global.items"⟩ :=
  C7_merge_keeps_original_owner [.num 5] [.num 6]

/-- Claim C10: conflict detection diffs against a JSON snapshot, and a
function-valued property vanishes from that snapshot. So when `P2`
overwrites `P1`'s function-valued `global.fn`, no conflict strategy is
consulted at all — no warning and no error under *any* strategy,
including ERROR — and ownership of the key is silently recorded for the
last writer `P2`. -/
theorem C10_function_values_bypass_conflict (s : ConflictResolutionStrategy) :
    (applyPluginExtensions [funcP1, funcP2 s] {}).error = none ∧
    (applyPluginExtensions [funcP1, funcP2 s] {}).warnings = [] ∧
    aget (applyPluginExtensions [funcP1, funcP2 s] {}).owners "global.fn" =
      some ⟨"P2", "global.fn"⟩ ∧
    ((applyPluginExtensions [funcP1, funcP2 s] {}).ctx.global.bind
      (fun g => jget g "fn")) = some (.func 2) := by
  cases s <;> exact ⟨rfl, rfl, rfl, rfl⟩

/-- Claim C10, witness: the theorem applied at the ERROR strategy. -/
theorem C10_witness :
    (applyPluginExtensions [funcP1, funcP2 .ERROR] {}).error = none ∧
    (applyPluginExtensions [funcP1, funcP2 .ERROR] {}).warnings = [] ∧
    aget (applyPluginExtensions [funcP1, funcP2 .ERROR] {}).owners "global.fn" =
      some ⟨"P2", "global.fn"⟩ :=
  ⟨(C10_function_values_bypass_conflict .ERROR).1,
    (C10_function_values_bypass_conflict .ERROR).2.1,
    (C10_function_values_bypass_conflict .ERROR).2.2.1⟩

end PluginLoader
